import Mathlib

/-!
The particle filter driver and the dense-algebra utilities of mssm.

A shallow embedding of `src/utils.h` and `src/PF.cpp`.

`double` values are read as elements of a linearly ordered field `α`; the two
library functions `std::exp` and `std::log` are arguments of every definition
that calls them.  The definitions are executable for every such `α`; the
theorems instantiate `α` with `ℝ`, `std::exp` with `Real.exp` and `std::log`
with `Real.log`, which is the exact-arithmetic reading of the code: no
operation rounds, overflows or underflows, and there is no infinity.  What the
code returns on doubles agrees with this reading up to rounding only, and a
statement that needs more than that (an exact value, a sharp bound, a finite
entry where `exp` underflows) is a statement about the reading, not about the
doubles.
An `arma::vec` is a `List α`.
-/

namespace Mssm

/-! ## `utils.h` -/

section utils

variable {α : Type} [LinearOrderedField α]

/-- First loop of `normalize_log_weights`: `max_w` starts at minus infinity
(`⊥`) and is replaced by every entry that is greater. -/
def max_weight (low_ws : List α) : WithBot α :=
  List.foldl
    (fun (max_w : WithBot α) (d : α) =>
      if (d : WithBot α) > max_w then (d : WithBot α) else max_w)
    ⊥ low_ws

/-- Second loop of `normalize_log_weights`, the entries: `d = exp(d - max_w)`. -/
def exp_shifted (exp : α → α) (max_w : α) (low_ws : List α) : List α :=
  low_ws.map (fun d => exp (d - max_w))

/-- Second loop of `normalize_log_weights`, the accumulator:
`norm_const += d`, from `0`. -/
def norm_const (ws : List α) : α :=
  ws.foldl (fun acc d => acc + d) 0

/-- Third loop of `normalize_log_weights`, the entries after `d /= norm_const`. -/
def divided (nc : α) (ws : List α) : List α :=
  ws.map (fun d => d / nc)

/-- Third loop of `normalize_log_weights`, the accumulator:
`ess_inv += d * d`, from `0`. -/
def ess_inv (ws : List α) : α :=
  ws.foldl (fun acc d => acc + d * d) 0

/-- The function `normalize_log_weights` of `utils.h`: the pair of the vector it
leaves in `low_ws` and of the value it returns.  When `max_w` is still minus
infinity after the first loop the vector is empty, and the two other loops
have no iteration: the vector is unchanged and `1. / 0.` is returned, which is
plus infinity on doubles and `0` in a field; no theorem is about the empty
vector. -/
def normalize_log_weights (exp log : α → α) (low_ws : List α) : List α × α :=
  match max_weight low_ws with
  | none => (low_ws, 1 / 0)
  | some max_w =>
    let ws1 := exp_shifted exp max_w low_ws
    let nc := norm_const ws1
    let ws2 := divided nc ws1
    (ws2.map log, 1 / ess_inv ws2)

/-- The class `chol_decomp` of `utils.h`, the two matrices it stores: the
original matrix `X` and the factor `chol_`, `n` by `n`.  The constructor is
declared in `utils.h` and defined elsewhere; what it leaves in `chol_` is a
hypothesis of the theorems. -/
structure chol_decomp (α : Type) (n : Nat) where
  X : Matrix (Fin n) (Fin n) α
  chol_ : Matrix (Fin n) (Fin n) α

/-- The method `chol_decomp::log_det` of `utils.h`: `out` starts at `0` and for
`i = 0, ..., n_cols - 1` is increased by `2. * std::log(chol_(i, i))`. -/
def chol_decomp.log_det {n : Nat} (log : α → α) (c : chol_decomp α n) : α :=
  (List.finRange n).foldl (fun out i => out + 2 * log (c.chol_ i i)) 0

/-- The function `log_sum_log(const double old, const double new_term)` of
`utils.h`.  `std::max(old, new_term)` is `new_term` when `old < new_term` and
`old` otherwise. -/
def log_sum_log (exp log : α → α) (old new_term : α) : α :=
  let max := if old < new_term then new_term else old
  let d1 := exp (old - max)
  let d2 := exp (new_term - max)
  log (d1 + d2) + max

/-- An Armadillo object, the `T` of `add_back<T>`: its size, `n_rows` by
`n_cols`, and its elements. -/
structure arma_obj (α : Type) where
  n_rows : Nat
  n_cols : Nat
  mem : List α

/-- The method `zeros()`: every element is set to zero, the size is kept. -/
def arma_obj.zeros (x : arma_obj α) : arma_obj α :=
  { x with mem := x.mem.map (fun _ => 0) }

/-- The comparison `arma::size(x) == arma::size(y)`. -/
def arma_obj.same_size (x y : arma_obj α) : Bool :=
  x.n_rows == y.n_rows && x.n_cols == y.n_cols

/-- The statement `x += y`, for two objects of the same size: element by
element. -/
def arma_obj.add (x y : arma_obj α) : arma_obj α :=
  { x with mem := List.zipWith (fun a b => a + b) x.mem y.mem }

/-- The class `add_back` of `utils.h`: the member `copy`, and the object that
the reference `org` stands for, with the value it has now. -/
structure add_back (α : Type) where
  copy : arma_obj α
  org : arma_obj α

/-- The constructor `add_back(T& org) : copy(org), org(org)`, whose body is
`org.zeros()`. -/
def add_back.construct (org : arma_obj α) : add_back α :=
  { copy := org, org := org.zeros }

/-- The destructor `~add_back()`: `org += copy` under
`if(arma::size(org) == arma::size(copy))`.  The value is the object that `org`
stands for after it. -/
def add_back.destruct (a : add_back α) : arma_obj α :=
  if a.org.same_size a.copy then a.org.add a.copy else a.org

/-- A scope that declares an `add_back` for `org` first.  `body` is what the
rest of the scope does to the object: from the value the constructor has left,
the value at the exit of the scope and whether the exit is by an exception.
The destructor runs at either exit. -/
def add_back_scope (body : arma_obj α → arma_obj α × Bool) (org : arma_obj α) :
    arma_obj α × Bool :=
  let guard := add_back.construct org
  let at_exit := body guard.org
  (add_back.destruct { guard with org := at_exit.1 }, at_exit.2)

end utils

/-! ## `PF.cpp` -/

section PF

/-- The members of `particle_cloud` that `PF` reads or writes.  The particles
are of a type `P` that `PF` never inspects; `stats` is a buffer that
`clear()` leaves without elements. -/
structure particle_cloud (P α : Type) where
  particles : P
  ws : List α
  ws_normalized : List α
  stats : List α

/-- The members of `problem_data` that `PF` reads: `n_periods`, `ctrl.trace`
and the method `get_obs_dist`, whose result is of a type `D` (a `cdist`);
and the number of particles `ctrl.N_part`. -/
structure problem_data (D : Type) where
  n_periods : Nat
  trace : Nat
  N_part : Nat
  get_obs_dist : Nat → D

/-- The two methods of `sampler` that `PF` calls; each returns the new cloud. -/
structure sampler (D P α : Type) where
  sample_first : problem_data D → D → particle_cloud P α
  sample : problem_data D → D → particle_cloud P α → Nat → particle_cloud P α

/-- Modelled from the spec: the two overloads of `stats_comp_helper::set_ll_n_stat`,
declared in `PF.h`.  The first-step form takes `(prob, new_cloud, dist_t)`, the
other one `(prob, old_cloud, new_cloud, dist_t, i)`; each writes the weights and
the statistics of `new_cloud`, passed by reference, and only reads the other
arguments.  The value is what the call leaves in `new_cloud`. -/
structure stats_comp_helper (D P α : Type) where
  set_ll_n_stat_first : problem_data D → particle_cloud P α → D → particle_cloud P α
  set_ll_n_stat :
    problem_data D → particle_cloud P α → particle_cloud P α → D → Nat → particle_cloud P α

/-- A call that `PF` makes to the sampler or to the stats helper, with its
arguments other than `prob`. -/
inductive PF_call (D P α : Type) where
  | sample_first (dist_t : D)
  | sample (dist_t : D) (old_cloud : particle_cloud P α) (i : Nat)
  | set_ll_n_stat_first (new_cloud : particle_cloud P α) (dist_t : D)
  | set_ll_n_stat (old_cloud new_cloud : particle_cloud P α) (dist_t : D) (i : Nat)

/-- The ways `PF` stops before its `return`: `Rcpp::checkUserInterrupt` throws,
or an element of `out` that does not exist is accessed. -/
inductive PF_exit where
  | interrupt
  | out_of_range
  deriving DecidableEq

/-- The state of a run of `PF`: the vector `out`, whether the run has stopped,
and three records of what happened so far: the calls made, the value of the
local `ess` of each iteration, and every value `out` has had. -/
structure PF_state (D P α : Type) where
  out : List (particle_cloud P α)
  exit : Option PF_exit
  calls : List (PF_call D P α)
  ess : List α
  seen : List (List (particle_cloud P α))

variable {D P α : Type}

/-- The element `out.back()`, when `out` has one. -/
def back (out : List (particle_cloud P α)) : Option (particle_cloud P α) :=
  out.getLast?

/-- The element `*(out.rbegin() + 1)`, when `out` has two elements or more. -/
def rbegin1 (out : List (particle_cloud P α)) : Option (particle_cloud P α) :=
  out.dropLast.getLast?

/-- Assignment to `out.back()`. -/
def set_back (out : List (particle_cloud P α)) (c : particle_cloud P α) :
    List (particle_cloud P α) :=
  out.set (out.length - 1) c

/-- Assignment to `*(out.rbegin() + 1)`. -/
def set_rbegin1 (out : List (particle_cloud P α)) (c : particle_cloud P α) :
    List (particle_cloud P α) :=
  out.set (out.length - 2) c

/-- The state once `out` has been given a new value. -/
def PF_state.write (st : PF_state D P α) (out : List (particle_cloud P α)) : PF_state D P α :=
  { st with out := out, seen := st.seen ++ [out] }

/-- The state once a call has been recorded. -/
def PF_state.record (st : PF_state D P α) (c : PF_call D P α) : PF_state D P α :=
  { st with calls := st.calls ++ [c] }

/-- The state once the run has stopped. -/
def PF_state.stop (st : PF_state D P α) (e : PF_exit) : PF_state D P α :=
  { st with exit := some e }

/-- Sequencing: the next statement runs only when the run has not stopped. -/
def PF_state.andThen (st : PF_state D P α) (f : PF_state D P α → PF_state D P α) :
    PF_state D P α :=
  match st.exit with
  | none => f st
  | some _ => st

/-- The statement `Rcpp::checkUserInterrupt()` under `if(i % 10L == 0)`.
`interrupt i` tells whether the host has an interrupt pending when iteration
`i` polls it, in which case the call throws. -/
def PF_poll (interrupt : Nat → Bool) (i : Nat) (st : PF_state D P α) : PF_state D P α :=
  if i % 10 = 0 ∧ interrupt i = true then st.stop PF_exit.interrupt else st

/-- The statement that samples the new cloud: `out.emplace_back` of
`sample_first(prob, *dist_t)` when `i == 0`, and otherwise of
`sample(prob, *dist_t, out.back(), i)`. -/
def PF_sample (prob : problem_data D) (samp : sampler D P α) (i : Nat)
    (st : PF_state D P α) : PF_state D P α :=
  let dist_t := prob.get_obs_dist i
  if i = 0 then
    (st.record (PF_call.sample_first dist_t)).write
      (st.out ++ [samp.sample_first prob dist_t])
  else
    match back st.out with
    | some old_cloud =>
      (st.record (PF_call.sample dist_t old_cloud i)).write
        (st.out ++ [samp.sample prob dist_t old_cloud i])
    | none => st.stop PF_exit.out_of_range

/-- The statement that updates the weights and sets the stats of
`new_cloud = out.back()`: `set_ll_n_stat(prob, *(out.rbegin() + 1), new_cloud,
*dist_t, i)` when `i > 0`, and otherwise
`set_ll_n_stat(prob, new_cloud, *dist_t)`. -/
def PF_weight (prob : problem_data D) (trans : stats_comp_helper D P α) (i : Nat)
    (st : PF_state D P α) : PF_state D P α :=
  let dist_t := prob.get_obs_dist i
  match back st.out with
  | none => st.stop PF_exit.out_of_range
  | some new_cloud =>
    if i > 0 then
      match rbegin1 st.out with
      | some old_cloud =>
        (st.record (PF_call.set_ll_n_stat old_cloud new_cloud dist_t i)).write
          (set_back st.out (trans.set_ll_n_stat prob old_cloud new_cloud dist_t i))
      | none => st.stop PF_exit.out_of_range
    else
      (st.record (PF_call.set_ll_n_stat_first new_cloud dist_t)).write
        (set_back st.out (trans.set_ll_n_stat_first prob new_cloud dist_t))

/-- The statement `new_cloud.ws_normalized = new_cloud.ws`. -/
def PF_copy_ws (st : PF_state D P α) : PF_state D P α :=
  match back st.out with
  | none => st.stop PF_exit.out_of_range
  | some new_cloud => st.write (set_back st.out { new_cloud with ws_normalized := new_cloud.ws })

/-- The statement
`double ess = normalize_log_weights(new_cloud.ws_normalized)`. -/
def PF_normalize [LinearOrderedField α] (exp log : α → α) (st : PF_state D P α) :
    PF_state D P α :=
  match back st.out with
  | none => st.stop PF_exit.out_of_range
  | some new_cloud =>
    let r := normalize_log_weights exp log new_cloud.ws_normalized
    { st.write (set_back st.out { new_cloud with ws_normalized := r.1 }) with
      ess := st.ess ++ [r.2] }

/-- The statement `(out.rbegin() + 1)->stats.clear()` under `if(i > 0L)`. -/
def PF_retire (i : Nat) (st : PF_state D P α) : PF_state D P α :=
  if i > 0 then
    match rbegin1 st.out with
    | some old_cloud => st.write (set_rbegin1 st.out { old_cloud with stats := [] })
    | none => st.stop PF_exit.out_of_range
  else st

/-- The body of the loop of `PF` for the index `i`.  The output under
`if(trace > 0)` goes to the console and leaves the state as it is. -/
def PF_iter [LinearOrderedField α] (exp log : α → α) (prob : problem_data D)
    (samp : sampler D P α) (trans : stats_comp_helper D P α) (interrupt : Nat → Bool)
    (st : PF_state D P α) (i : Nat) : PF_state D P α :=
  ((((((st.andThen (PF_poll interrupt i)).andThen
    (PF_sample prob samp i)).andThen
    (PF_weight prob trans i)).andThen
    PF_copy_ws).andThen
    (PF_normalize exp log)).andThen
    (PF_retire i))

/-- The state in which `PF` enters its loop: `out` is empty. -/
def PF_init : PF_state D P α :=
  { out := [], exit := none, calls := [], ess := [], seen := [[]] }

/-- The state after the iterations `i = 0, ..., k - 1` of the loop of `PF`. -/
def PF_loop [LinearOrderedField α] (exp log : α → α) (prob : problem_data D)
    (samp : sampler D P α) (trans : stats_comp_helper D P α) (interrupt : Nat → Bool)
    (k : Nat) : PF_state D P α :=
  (List.range k).foldl (PF_iter exp log prob samp trans interrupt) PF_init

/-- The state in which `PF` leaves its loop,
`for(arma::uword i = 0; i < prob.n_periods; ++i)`. -/
def PF_run [LinearOrderedField α] (exp log : α → α) (prob : problem_data D)
    (samp : sampler D P α) (trans : stats_comp_helper D P α) (interrupt : Nat → Bool) :
    PF_state D P α :=
  PF_loop exp log prob samp trans interrupt prob.n_periods

/-- The function `PF` of `PF.cpp`: the vector it returns, or `none` when the run
stops before the `return`. -/
def PF [LinearOrderedField α] (exp log : α → α) (prob : problem_data D)
    (samp : sampler D P α) (trans : stats_comp_helper D P α) (interrupt : Nat → Bool) :
    Option (List (particle_cloud P α)) :=
  match (PF_run exp log prob samp trans interrupt).exit with
  | none => some (PF_run exp log prob samp trans interrupt).out
  | some _ => none

/-! ### The clouds of a run, step by step

The definitions below name the values that the statements of step `i` compute,
as functions of the cloud `old` that the step before has left (`none` at the
first step).  The theorems compare the states of `PF_loop` with them. -/

section steps

variable [LinearOrderedField α] (exp log : α → α) (prob : problem_data D)
  (samp : sampler D P α) (trans : stats_comp_helper D P α)

/-- The cloud that step `i` samples. -/
def sampled_from (old : Option (particle_cloud P α)) (i : Nat) : particle_cloud P α :=
  match old with
  | none => samp.sample_first prob (prob.get_obs_dist i)
  | some old_cloud => samp.sample prob (prob.get_obs_dist i) old_cloud i

/-- The call with which step `i` samples. -/
def sample_call (old : Option (particle_cloud P α)) (i : Nat) : PF_call D P α :=
  match old with
  | none => PF_call.sample_first (prob.get_obs_dist i)
  | some old_cloud => PF_call.sample (prob.get_obs_dist i) old_cloud i

/-- The new cloud of step `i` once `set_ll_n_stat` has written it. -/
def weighted_from (old : Option (particle_cloud P α)) (i : Nat) : particle_cloud P α :=
  match old with
  | none =>
    trans.set_ll_n_stat_first prob (sampled_from prob samp none i) (prob.get_obs_dist i)
  | some old_cloud =>
    trans.set_ll_n_stat prob old_cloud (sampled_from prob samp (some old_cloud) i)
      (prob.get_obs_dist i) i

/-- The call of `set_ll_n_stat` of step `i`. -/
def weight_call (old : Option (particle_cloud P α)) (i : Nat) : PF_call D P α :=
  match old with
  | none =>
    PF_call.set_ll_n_stat_first (sampled_from prob samp none i) (prob.get_obs_dist i)
  | some old_cloud =>
    PF_call.set_ll_n_stat old_cloud (sampled_from prob samp (some old_cloud) i)
      (prob.get_obs_dist i) i

/-- The new cloud of step `i` once `ws` has been copied to `ws_normalized`. -/
def copied_from (old : Option (particle_cloud P α)) (i : Nat) : particle_cloud P α :=
  { weighted_from prob samp trans old i with
    ws_normalized := (weighted_from prob samp trans old i).ws }

/-- The new cloud of step `i` once `ws_normalized` has been normalized. -/
def cloud_from (old : Option (particle_cloud P α)) (i : Nat) : particle_cloud P α :=
  { weighted_from prob samp trans old i with
    ws_normalized :=
      (normalize_log_weights exp log (weighted_from prob samp trans old i).ws).1 }

/-- The cloud of step `k` as step `k` leaves it. -/
def cloud_at : Nat → particle_cloud P α
  | 0 => cloud_from exp log prob samp trans none 0
  | k + 1 => cloud_from exp log prob samp trans (some (cloud_at k)) (k + 1)

/-- The cloud that step `k` finds at the back of `out`: none at step `0`. -/
def old_at : Nat → Option (particle_cloud P α)
  | 0 => none
  | k + 1 => some (cloud_at exp log prob samp trans k)

/-- A cloud with its stats cleared. -/
def retired (c : particle_cloud P α) : particle_cloud P α :=
  { c with stats := [] }

/-- The vector `out` after `k` steps: the clouds of the steps `0, ..., k - 2`
with their stats cleared, then the cloud of step `k - 1`. -/
def out_after : Nat → List (particle_cloud P α)
  | 0 => []
  | k + 1 =>
    (List.range k).map (fun j => retired (cloud_at exp log prob samp trans j)) ++
      [cloud_at exp log prob samp trans k]

/-- The calls of step `k`. -/
def calls_at (k : Nat) : List (PF_call D P α) :=
  [sample_call prob (old_at exp log prob samp trans k) k,
   weight_call prob samp (old_at exp log prob samp trans k) k]

/-- The calls of the steps `0, ..., k - 1`. -/
def calls_upto : Nat → List (PF_call D P α)
  | 0 => []
  | k + 1 => calls_upto k ++ calls_at exp log prob samp trans k

/-- The effective sample size that step `k` computes. -/
def ess_at (k : Nat) : α :=
  (normalize_log_weights exp log
    (weighted_from prob samp trans (old_at exp log prob samp trans k) k).ws).2

/-- The effective sample sizes of the steps `0, ..., k - 1`. -/
def ess_upto : Nat → List α
  | 0 => []
  | k + 1 => ess_upto k ++ [ess_at exp log prob samp trans k]

/-- The values that step `k` gives to `out`, one for each statement that writes it. -/
def seen_at (k : Nat) : List (List (particle_cloud P α)) :=
  let o := out_after exp log prob samp trans k
  let old := old_at exp log prob samp trans k
  [o ++ [sampled_from prob samp old k],
   o ++ [weighted_from prob samp trans old k],
   o ++ [copied_from prob samp trans old k],
   o ++ [cloud_from exp log prob samp trans old k]] ++
  (if k > 0 then [out_after exp log prob samp trans (k + 1)] else [])

/-- The values `out` has had by the end of step `k - 1`. -/
def seen_upto : Nat → List (List (particle_cloud P α))
  | 0 => [[]]
  | k + 1 => seen_upto k ++ seen_at exp log prob samp trans k

/-- The state after `m` steps of a run that has stopped, or not, by `e`. -/
def PF_after (m : Nat) (e : Option PF_exit) : PF_state D P α :=
  { out := out_after exp log prob samp trans m
    exit := e
    calls := calls_upto exp log prob samp trans m
    ess := ess_upto exp log prob samp trans m
    seen := seen_upto exp log prob samp trans m }

end steps

end PF

/-! ## The proposal builder and the conditional densities

`proposal_dist.h` and `dists.h` are not among the sources; `test-proposal-dist.cpp`
calls them.  The definitions of this part follow the specification. -/

section proposal

variable {α : Type} [LinearOrderedField α]

/-- The two classes a proposal is an instance of in `test-proposal-dist.cpp`,
`mv_norm` and `mv_tdist`, with what their methods `mean()` and `vCov()` return
and, for `mv_tdist`, the degrees of freedom. -/
inductive proposal_dist (α : Type) where
  | mv_norm (mean : List α) (vCov : List (List α))
  | mv_tdist (mean : List α) (vCov : List (List α)) (nu : α)

/-- The method `mean()` of a proposal. -/
def proposal_dist.mean : proposal_dist α → List α
  | proposal_dist.mv_norm m _ => m
  | proposal_dist.mv_tdist m _ _ => m

/-- The method `vCov()` of a proposal. -/
def proposal_dist.vCov : proposal_dist α → List (List α)
  | proposal_dist.mv_norm _ v => v
  | proposal_dist.mv_tdist _ v _ => v

/-- Whether `dynamic_cast<mv_norm*>` of a proposal is not null. -/
def proposal_dist.is_mv_norm : proposal_dist α → Bool
  | proposal_dist.mv_norm _ _ => true
  | proposal_dist.mv_tdist _ _ _ => false

/-- Whether `dynamic_cast<mv_tdist*>` of a proposal is not null. -/
def proposal_dist.is_mv_tdist : proposal_dist α → Bool
  | proposal_dist.mv_norm _ _ => false
  | proposal_dist.mv_tdist _ _ _ => true

/-- Modelled from the spec: the result of the Newton-type optimization of
`mode_approximation` (its code is not among the sources): the mode it has
located, the inverse of the negated summed Hessian at the mode, and whether it
failed. -/
structure mode_search (α : Type) where
  mode : List α
  neg_inv_hessian : List (List α)
  any_errors : Bool

/-- The value `mode_approximation` returns: the members `proposal` and
`any_errors` that `test-proposal-dist.cpp` reads. -/
structure mode_approximation_output (α : Type) where
  proposal : proposal_dist α
  any_errors : Bool

/-- Modelled from the spec: `mode_approximation`, declared in `proposal_dist.h`,
which is not among the sources.  Its inputs are the list of density components,
a starting vector, `nu`, `covar_fac` and `ftol_rel`.  The optimization, `optimize`,
depends on the components, the starting vector and `ftol_rel`; the proposal has
the located mode as its mean and the inverse of the negated summed Hessian at
the mode, scaled by `covar_fac`, as its covariance; it is a normal when
`nu <= 0`, else a t-distribution with `nu` degrees of freedom. -/
def mode_approximation {C : Type} (optimize : List C → List α → α → mode_search α)
    (cdists : List C) (start : List α) (nu covar_fac ftol_rel : α) :
    mode_approximation_output α :=
  let found := optimize cdists start ftol_rel
  let vCov := found.neg_inv_hessian.map (fun row => row.map (fun h => covar_fac * h))
  { proposal :=
      if nu ≤ 0 then proposal_dist.mv_norm found.mode vCov
      else proposal_dist.mv_tdist found.mode vCov nu
    any_errors := found.any_errors }

/-- The kinds of statistic a caller requests, the values of `comp_out` that
`test-proposal-dist.cpp` uses. -/
inductive comp_out where
  | log_densty
  | gradient
  | Hessian
  deriving DecidableEq

/-- Modelled from the spec: a conditional-density component (`cdist`, declared
in `dists.h`, which is not among the sources), by the two things its contract
fixes for a request: the dimension of the statistic vector, and the
contribution `stats x what` of a state vector `x` to it. -/
structure cdist (α : Type) where
  stat_dim : comp_out → Nat
  stats : List α → comp_out → List α

/-- Accumulation into a buffer: slot `k` of the buffer is increased by entry `k`
of the contribution; the slots past the contribution keep their content. -/
def accumulate : List α → List α → List α
  | b :: buffer, s :: contribution => (b + s) :: accumulate buffer contribution
  | buffer, [] => buffer
  | [], _ :: _ => []

/-- Modelled from the spec: the statistics-accumulation method
`comp_stats_state_only(x, buffer, what)` of a component, whose implementations
are not among the sources: it accumulates the statistics of the state vector
into the caller-provided buffer, adding to the existing contents.  The value is
the content of the buffer after the call. -/
def cdist.comp_stats_state_only (c : cdist α) (x : List α) (buffer : List α)
    (what : comp_out) : List α :=
  accumulate buffer (c.stats x what)

/-- The sum of two buffers, slot by slot. -/
def buffer_add (a b : List α) : List α :=
  List.zipWith (fun x y => x + y) a b

/-- The normalized weights of a vector of log-weights, as the specification
defines them: `w_i = exp(l_i) / Σ_j exp(l_j)`. -/
def normalized_weights (exp : α → α) (l : List α) : List α :=
  l.map (fun x => exp x / (l.map exp).sum)

end proposal

/-! ## A small run -/

section small_run

variable (α : Type) [LinearOrderedField α]

/-- A problem of three periods and two particles; the density of period `i` is
the number `i`. -/
def small_problem : problem_data Nat :=
  { n_periods := 3, trace := 0, N_part := 2, get_obs_dist := fun i => i }

/-- A sampler whose clouds come without weights and without stats; the
particles are a number. -/
def small_sampler : sampler Nat Nat α :=
  { sample_first := fun _ d => { particles := d, ws := [], ws_normalized := [], stats := [] }
    sample := fun _ d _ i =>
      { particles := d + i, ws := [], ws_normalized := [], stats := [] } }

/-- A stats helper that gives each of the two particles the log-weight `0` and
writes one statistic. -/
def small_helper : stats_comp_helper Nat Nat α :=
  { set_ll_n_stat_first := fun _ c _ => { c with ws := [0, 0], stats := [1] }
    set_ll_n_stat := fun _ _ c _ _ => { c with ws := [0, 0], stats := [1] } }

end small_run

/-! ## Lemmas on the loops of `utils.h` -/

section utils_lemmas

variable {α : Type} [LinearOrderedField α]

theorem foldl_add_eq_sum {β : Type} (f : β → α) (l : List β) (a : α) :
    l.foldl (fun acc d => acc + f d) a = a + (l.map f).sum := by
  induction l generalizing a with
  | nil => simp
  | cons x xs ih => simp [ih, add_assoc]

theorem norm_const_eq_sum (ws : List α) : norm_const ws = ws.sum := by
  have h := foldl_add_eq_sum (fun d : α => d) ws 0
  simpa [norm_const] using h

theorem ess_inv_eq_sum (ws : List α) : ess_inv ws = (ws.map (fun d => d * d)).sum := by
  have h := foldl_add_eq_sum (fun d : α => d * d) ws 0
  simpa [ess_inv] using h

theorem max_loop_coe (l : List α) (a : α) :
    ∃ m : α, List.foldl
      (fun (max_w : WithBot α) (d : α) =>
        if (d : WithBot α) > max_w then (d : WithBot α) else max_w)
      (a : WithBot α) l = (m : WithBot α) := by
  induction l generalizing a with
  | nil => exact ⟨a, rfl⟩
  | cons x xs ih =>
    simp only [List.foldl_cons]
    split_ifs
    · exact ih x
    · exact ih a

/-- After the first loop `max_w` is a number, not minus infinity, as soon as the
vector has an entry. -/
theorem max_weight_of_ne_nil (l : List α) (hl : l ≠ []) :
    ∃ m : α, max_weight l = some m := by
  cases l with
  | nil => exact absurd rfl hl
  | cons x xs =>
    obtain ⟨m, hm⟩ := max_loop_coe xs x
    refine ⟨m, ?_⟩
    simp only [max_weight, List.foldl_cons]
    rw [if_pos (WithBot.bot_lt_coe x)]
    exact hm

theorem sum_map_div_const (f : α → α) (c : α) (l : List α) :
    (l.map (fun x => f x / c)).sum = (l.map f).sum / c := by
  induction l with
  | nil => simp
  | cons x xs ih => simp [ih, add_div]

theorem sum_map_of_const (f : α → α) (c : α) (l : List α) (h : ∀ x ∈ l, f x = c) :
    (l.map f).sum = l.length * c := by
  induction l with
  | nil => simp
  | cons x xs ih =>
    have hx : f x = c := h x (List.mem_cons_self x xs)
    have hxs : ∀ y ∈ xs, f y = c := fun y hy => h y (List.mem_cons_of_mem x hy)
    simp [ih hxs, hx]
    ring

theorem sum_sq_shift (c : α) (w : List α) :
    (w.map (fun x => (x - c) * (x - c))).sum =
      (w.map (fun x => x * x)).sum - 2 * c * w.sum + w.length * (c * c) := by
  induction w with
  | nil => simp
  | cons x xs ih =>
    simp [ih]
    ring

theorem sum_sq_nonneg (w : List α) : 0 ≤ (w.map (fun x => x * x)).sum := by
  induction w with
  | nil => simp
  | cons x xs ih =>
    simp only [List.map_cons, List.sum_cons]
    exact add_nonneg (mul_self_nonneg x) ih

theorem sum_sq_eq_zero (w : List α) (h : (w.map (fun x => x * x)).sum = 0) :
    ∀ x ∈ w, x = 0 := by
  induction w with
  | nil => intro x hx; cases hx
  | cons y ys ih =>
    simp only [List.map_cons, List.sum_cons] at h
    have h1 : 0 ≤ y * y := mul_self_nonneg y
    have h2 := sum_sq_nonneg ys
    have hy : y * y = 0 := by linarith
    have hys : (ys.map (fun x => x * x)).sum = 0 := by linarith
    intro x hx
    rcases List.mem_cons.mp hx with rfl | hx
    · exact mul_self_eq_zero.mp hy
    · exact ih hys x hx

theorem sum_nonneg_of_mem (w : List α) (h : ∀ x ∈ w, 0 ≤ x) : 0 ≤ w.sum := by
  induction w with
  | nil => simp
  | cons y ys ih =>
    simp only [List.sum_cons]
    exact add_nonneg (h y (List.mem_cons_self y ys))
      (ih (fun x hx => h x (List.mem_cons_of_mem y hx)))

theorem sum_sq_le_sq_sum (w : List α) (h : ∀ x ∈ w, 0 ≤ x) :
    (w.map (fun x => x * x)).sum ≤ w.sum * w.sum := by
  induction w with
  | nil => simp
  | cons y ys ih =>
    have hy : 0 ≤ y := h y (List.mem_cons_self y ys)
    have hys : ∀ x ∈ ys, 0 ≤ x := fun x hx => h x (List.mem_cons_of_mem y hx)
    have h1 := ih hys
    have h2 := sum_nonneg_of_mem ys hys
    simp only [List.map_cons, List.sum_cons]
    nlinarith [mul_nonneg hy h2]

end utils_lemmas

/-! ## `normalize_log_weights` in exact arithmetic -/

section normalize_real

theorem sum_exp_pos (l : List ℝ) (hl : l ≠ []) : 0 < (l.map Real.exp).sum := by
  apply List.sum_pos
  · intro x hx
    obtain ⟨y, _, rfl⟩ := List.mem_map.mp hx
    exact Real.exp_pos y
  · simpa using hl

theorem sum_exp_shifted (l : List ℝ) (m : ℝ) :
    (l.map (fun d => Real.exp (d - m))).sum = (l.map Real.exp).sum / Real.exp m := by
  rw [← sum_map_div_const]
  congr 1
  apply List.map_congr_left
  intro x _
  exact Real.exp_sub x m

/-- Whatever number `max_w` is subtracted, the second and third loops leave the
normalized weights `exp(l_i) / Σ_j exp(l_j)` before the logarithm is taken. -/
theorem divided_exp_shifted (l : List ℝ) (m : ℝ) :
    divided (norm_const (exp_shifted Real.exp m l)) (exp_shifted Real.exp m l) =
      normalized_weights Real.exp l := by
  unfold divided exp_shifted normalized_weights
  rw [norm_const_eq_sum, List.map_map, sum_exp_shifted]
  apply List.map_congr_left
  intro x _
  simp only [Function.comp, Real.exp_sub]
  have hm : Real.exp m ≠ 0 := Real.exp_ne_zero m
  by_cases hS : (l.map Real.exp).sum = 0
  · simp [hS]
  · field_simp

theorem normalize_log_weights_eq (l : List ℝ) (hl : l ≠ []) :
    normalize_log_weights Real.exp Real.log l =
      ((normalized_weights Real.exp l).map Real.log,
        1 / ((normalized_weights Real.exp l).map (fun w => w * w)).sum) := by
  obtain ⟨m, hm⟩ := max_weight_of_ne_nil l hl
  simp only [normalize_log_weights, hm]
  rw [divided_exp_shifted, ess_inv_eq_sum]

theorem normalized_weights_length (l : List ℝ) :
    (normalized_weights Real.exp l).length = l.length := by
  simp [normalized_weights]

theorem normalized_weights_pos (l : List ℝ) (hl : l ≠ []) :
    ∀ w ∈ normalized_weights Real.exp l, 0 < w := by
  intro w hw
  obtain ⟨x, _, rfl⟩ := List.mem_map.mp hw
  exact div_pos (Real.exp_pos x) (sum_exp_pos l hl)

theorem normalized_weights_sum (l : List ℝ) (hl : l ≠ []) :
    (normalized_weights Real.exp l).sum = 1 := by
  unfold normalized_weights
  rw [sum_map_div_const]
  exact div_self (ne_of_gt (sum_exp_pos l hl))

theorem exp_log_normalized_weights (l : List ℝ) (hl : l ≠ []) :
    ((normalized_weights Real.exp l).map Real.log).map Real.exp =
      normalized_weights Real.exp l := by
  rw [List.map_map]
  conv_rhs => rw [← List.map_id (normalized_weights Real.exp l)]
  apply List.map_congr_left
  intro w hw
  simp only [Function.comp, id]
  exact Real.exp_log (normalized_weights_pos l hl w hw)

/-- The sum of the squared normalized weights lies between `1 / N` and `1`. -/
theorem sum_sq_normalized_weights_bounds (l : List ℝ) (hl : l ≠ []) :
    1 / (l.length : ℝ) ≤ ((normalized_weights Real.exp l).map (fun w => w * w)).sum ∧
      ((normalized_weights Real.exp l).map (fun w => w * w)).sum ≤ 1 := by
  have hN : (0 : ℝ) < l.length := by
    have : 0 < l.length := List.length_pos.mpr hl
    exact_mod_cast this
  have hsum := normalized_weights_sum l hl
  have hlen := normalized_weights_length l
  constructor
  · have h1 := sum_sq_shift (1 / (l.length : ℝ)) (normalized_weights Real.exp l)
    have h2 := sum_sq_nonneg ((normalized_weights Real.exp l).map (fun x => x - 1 / (l.length : ℝ)))
    rw [List.map_map] at h2
    have h3 : ((fun x : ℝ => x * x) ∘ fun x => x - 1 / (l.length : ℝ)) =
        fun x => (x - 1 / (l.length : ℝ)) * (x - 1 / (l.length : ℝ)) := rfl
    rw [h3, h1, hsum, hlen] at h2
    have h4 : (l.length : ℝ) * (1 / (l.length : ℝ) * (1 / (l.length : ℝ))) = 1 / (l.length : ℝ) := by
      field_simp
    rw [h4] at h2
    linarith
  · have h := sum_sq_le_sq_sum (normalized_weights Real.exp l)
      (fun w hw => le_of_lt (normalized_weights_pos l hl w hw))
    rw [hsum] at h
    linarith

theorem sum_sq_normalized_weights_eq_iff (l : List ℝ) (hl : l ≠ []) :
    ((normalized_weights Real.exp l).map (fun w => w * w)).sum = 1 / (l.length : ℝ) ↔
      ∀ x ∈ l, ∀ y ∈ l, x = y := by
  have hN : (0 : ℝ) < l.length := by
    have : 0 < l.length := List.length_pos.mpr hl
    exact_mod_cast this
  have hS := sum_exp_pos l hl
  have hsum := normalized_weights_sum l hl
  have hlen := normalized_weights_length l
  constructor
  · intro hQ
    have h1 := sum_sq_shift (1 / (l.length : ℝ)) (normalized_weights Real.exp l)
    have h4 : (l.length : ℝ) * (1 / (l.length : ℝ) * (1 / (l.length : ℝ))) = 1 / (l.length : ℝ) := by
      field_simp
    rw [hQ, hsum, hlen, h4] at h1
    have h0 : (((normalized_weights Real.exp l).map (fun x => x - 1 / (l.length : ℝ))).map
        (fun x => x * x)).sum = 0 := by
      rw [List.map_map]
      have h3 : ((fun x : ℝ => x * x) ∘ fun x => x - 1 / (l.length : ℝ)) =
          fun x => (x - 1 / (l.length : ℝ)) * (x - 1 / (l.length : ℝ)) := rfl
      rw [h3, h1]
      ring
    have hz := sum_sq_eq_zero _ h0
    have hw : ∀ x ∈ l, Real.exp x = (l.map Real.exp).sum / (l.length : ℝ) := by
      intro x hx
      have hmem : Real.exp x / (l.map Real.exp).sum - 1 / (l.length : ℝ) ∈
          (normalized_weights Real.exp l).map (fun x => x - 1 / (l.length : ℝ)) := by
        unfold normalized_weights
        rw [List.map_map]
        exact List.mem_map.mpr ⟨x, hx, rfl⟩
      have := hz _ hmem
      field_simp at this
      field_simp
      linarith
    intro x hx y hy
    apply Real.exp_injective
    rw [hw x hx, hw y hy]
  · intro hall
    obtain ⟨a, ha⟩ := List.exists_mem_of_ne_nil l hl
    have hexp : ∀ x ∈ l, Real.exp x = Real.exp a := fun x hx => by rw [hall x hx a ha]
    have hSa : (l.map Real.exp).sum = l.length * Real.exp a := sum_map_of_const _ _ l hexp
    have ha0 : Real.exp a ≠ 0 := Real.exp_ne_zero a
    have hN0 : (l.length : ℝ) ≠ 0 := ne_of_gt hN
    unfold normalized_weights
    rw [List.map_map]
    rw [sum_map_of_const _ (1 / (l.length : ℝ) * (1 / (l.length : ℝ))) l]
    · field_simp
    · intro x hx
      simp only [Function.comp]
      rw [hSa, hexp x hx]
      field_simp
      ring

/-- C2: for a non-empty vector `l` of log-weights, `normalize_log_weights`
returns `1 / Σ_i w_i²`, where `w_i = exp(l_i) / Σ_j exp(l_j)` are the normalized
weights: the maximum that the code subtracts cancels. -/
theorem normalize_log_weights_returns_ess (l : List ℝ) (hl : l ≠ []) :
    (normalize_log_weights Real.exp Real.log l).2 =
      1 / ((normalized_weights Real.exp l).map (fun w => w ^ 2)).sum := by
  rw [normalize_log_weights_eq l hl]
  have h : (fun w : ℝ => w ^ 2) = fun w => w * w := by
    funext w
    ring
  rw [h]

theorem normalize_log_weights_returns_ess_witness :
    ([0, 1] : List ℝ) ≠ [] ∧
      (normalize_log_weights Real.exp Real.log [0, 1]).2 =
        1 / ((normalized_weights Real.exp [0, 1]).map (fun w => w ^ 2)).sum :=
  ⟨by simp, normalize_log_weights_returns_ess [0, 1] (by simp)⟩

/-- In exact arithmetic: for a non-empty vector of `N` log-weights, the value of
`normalize_log_weights` is exactly `N` if and only if all the log-weights of the
vector are equal.  This is a fact of the exact reading only: on doubles the
sums and quotients round, and neither direction is a statement about the value
the code returns. -/
theorem normalize_log_weights_ess_eq_length_iff (l : List ℝ) (hl : l ≠ []) :
    (normalize_log_weights Real.exp Real.log l).2 = (l.length : ℝ) ↔
      ∀ x ∈ l, ∀ y ∈ l, x = y := by
  rw [normalize_log_weights_eq l hl, ← sum_sq_normalized_weights_eq_iff l hl]
  have hN : (0 : ℝ) < l.length := by
    have : 0 < l.length := List.length_pos.mpr hl
    exact_mod_cast this
  have hQ := (sum_sq_normalized_weights_bounds l hl).1
  have hQ0 : 0 < ((normalized_weights Real.exp l).map (fun w => w * w)).sum :=
    lt_of_lt_of_le (one_div_pos.mpr hN) hQ
  simp only
  constructor
  · intro h
    rw [← h]
    field_simp
  · intro h
    rw [h]
    field_simp

theorem normalize_log_weights_ess_eq_length_iff_witness :
    ([2, 2, 2] : List ℝ) ≠ [] ∧
      ((normalize_log_weights Real.exp Real.log [2, 2, 2]).2 = (([2, 2, 2] : List ℝ).length : ℝ) ↔
        ∀ x ∈ ([2, 2, 2] : List ℝ), ∀ y ∈ ([2, 2, 2] : List ℝ), x = y) :=
  ⟨by simp, normalize_log_weights_ess_eq_length_iff [2, 2, 2] (by simp)⟩

end normalize_real

/-! ## `chol_decomp::log_det` -/

section chol

theorem log_det_eq_sum {n : Nat} (c : chol_decomp ℝ n) :
    c.log_det Real.log = 2 * ∑ i : Fin n, Real.log (c.chol_ i i) := by
  unfold chol_decomp.log_det
  rw [foldl_add_eq_sum (fun i => 2 * Real.log (c.chol_ i i)), zero_add,
    ← Fin.sum_univ_def, Finset.mul_sum]

/-- C10: when the stored factor `R = chol_` is upper triangular with a strictly
positive diagonal and `X = Rᵗ R`, `log_det` returns `2 · Σ_i log(R_ii)`, and this
value is `log(det X)`. -/
theorem chol_decomp_log_det {n : Nat} (c : chol_decomp ℝ n)
    (hupper : ∀ i j : Fin n, j < i → c.chol_ i j = 0)
    (hdiag : ∀ i : Fin n, 0 < c.chol_ i i)
    (hX : c.X = c.chol_.transpose * c.chol_) :
    c.log_det Real.log = 2 * ∑ i : Fin n, Real.log (c.chol_ i i) ∧
      c.log_det Real.log = Real.log c.X.det := by
  refine ⟨log_det_eq_sum c, ?_⟩
  have htri : c.chol_.BlockTriangular id := fun i j hij => hupper i j hij
  have hdet : c.chol_.det = ∏ i : Fin n, c.chol_ i i := Matrix.det_of_upperTriangular htri
  have hne : ∀ i ∈ (Finset.univ : Finset (Fin n)), c.chol_ i i ≠ 0 :=
    fun i _ => ne_of_gt (hdiag i)
  have hprod : (∏ i : Fin n, c.chol_ i i) ≠ 0 := Finset.prod_ne_zero_iff.mpr hne
  rw [log_det_eq_sum, hX, Matrix.det_mul, Matrix.det_transpose, hdet,
    Real.log_mul hprod hprod, Real.log_prod _ _ hne]
  ring

theorem chol_decomp_log_det_witness :
    (∀ i j : Fin 2, j < i →
      (chol_decomp.mk (!![4, 2; 2, 10]) (!![2, 1; 0, 3]) : chol_decomp ℝ 2).chol_ i j = 0) ∧
    (∀ i : Fin 2,
      0 < (chol_decomp.mk (!![4, 2; 2, 10]) (!![2, 1; 0, 3]) : chol_decomp ℝ 2).chol_ i i) ∧
    ((chol_decomp.mk (!![4, 2; 2, 10]) (!![2, 1; 0, 3]) : chol_decomp ℝ 2).log_det Real.log =
        2 * ∑ i : Fin 2,
          Real.log ((chol_decomp.mk (!![4, 2; 2, 10]) (!![2, 1; 0, 3]) : chol_decomp ℝ 2).chol_ i i) ∧
      (chol_decomp.mk (!![4, 2; 2, 10]) (!![2, 1; 0, 3]) : chol_decomp ℝ 2).log_det Real.log =
        Real.log (chol_decomp.mk (!![4, 2; 2, 10]) (!![2, 1; 0, 3]) : chol_decomp ℝ 2).X.det) := by
  have hupper : ∀ i j : Fin 2, j < i →
      (chol_decomp.mk (!![4, 2; 2, 10]) (!![2, 1; 0, 3]) : chol_decomp ℝ 2).chol_ i j = 0 := by
    intro i j hij
    fin_cases i <;> fin_cases j <;> simp at hij ⊢
  have hdiag : ∀ i : Fin 2,
      0 < (chol_decomp.mk (!![4, 2; 2, 10]) (!![2, 1; 0, 3]) : chol_decomp ℝ 2).chol_ i i := by
    intro i
    fin_cases i <;> simp
  have hX : (chol_decomp.mk (!![4, 2; 2, 10]) (!![2, 1; 0, 3]) : chol_decomp ℝ 2).X =
      (chol_decomp.mk (!![4, 2; 2, 10]) (!![2, 1; 0, 3]) : chol_decomp ℝ 2).chol_.transpose *
        (chol_decomp.mk (!![4, 2; 2, 10]) (!![2, 1; 0, 3]) : chol_decomp ℝ 2).chol_ := by
    ext i j
    fin_cases i <;> fin_cases j <;>
      simp [Matrix.mul_apply, Fin.sum_univ_two, Matrix.transpose_apply, Matrix.vecHead,
        Matrix.transpose] <;> norm_num
  exact ⟨hupper, hdiag, chol_decomp_log_det _ hupper hdiag hX⟩

end chol

/-! ## The loop of `PF` -/

section PF_lemmas

variable {D P α : Type}

theorem back_concat (l : List (particle_cloud P α)) (c : particle_cloud P α) :
    back (l ++ [c]) = some c := by
  simp [back]

theorem rbegin1_concat (l : List (particle_cloud P α)) (a b : particle_cloud P α) :
    rbegin1 (l ++ [a, b]) = some a := by
  have h : l ++ [a, b] = (l ++ [a]) ++ [b] := by simp
  rw [rbegin1, h, List.dropLast_concat]
  simp

theorem set_back_concat (l : List (particle_cloud P α)) (a c : particle_cloud P α) :
    set_back (l ++ [a]) c = l ++ [c] := by
  simp [set_back]

theorem set_rbegin1_concat (l : List (particle_cloud P α)) (a b c : particle_cloud P α) :
    set_rbegin1 (l ++ [a, b]) c = l ++ [c, b] := by
  simp [set_rbegin1]

theorem filter_stats_le_two (p : List (particle_cloud P α))
    (h : ∀ (j : Nat) (c : particle_cloud P α), j + 2 < p.length → p[j]? = some c →
      c.stats = []) :
    (p.filter (fun c => !c.stats.isEmpty)).length ≤ 2 := by
  have hsplit := List.take_append_drop (p.length - 2) p
  rw [← hsplit, List.filter_append, List.length_append]
  have h1 : (p.take (p.length - 2)).filter (fun c => !c.stats.isEmpty) = [] := by
    rw [List.filter_eq_nil_iff]
    intro c hc
    obtain ⟨j, hj⟩ := List.mem_iff_getElem?.mp hc
    rw [List.getElem?_take] at hj
    split_ifs at hj with hlt
    · have := h j c (by omega) hj
      simp [this]
  have h2 : ((p.drop (p.length - 2)).filter (fun c => !c.stats.isEmpty)).length ≤ 2 := by
    refine le_trans (List.length_filter_le _ _) ?_
    rw [List.length_drop]
    omega
  rw [h1]
  simpa using h2

variable [LinearOrderedField α] (exp log : α → α) (prob : problem_data D)
  (samp : sampler D P α) (trans : stats_comp_helper D P α) (interrupt : Nat → Bool)

/-- The first iteration, from a state in which `out` is empty. -/
theorem PF_iter_first (st : PF_state D P α) (hexit : st.exit = none) (hout : st.out = [])
    (hpoll : interrupt 0 = false) :
    PF_iter exp log prob samp trans interrupt st 0 =
      { out := [cloud_from exp log prob samp trans none 0]
        exit := none
        calls := st.calls ++ [sample_call prob none 0, weight_call prob samp none 0]
        ess := st.ess ++
          [(normalize_log_weights exp log (weighted_from prob samp trans none 0).ws).2]
        seen := st.seen ++
          [[sampled_from prob samp none 0], [weighted_from prob samp trans none 0],
           [copied_from prob samp trans none 0], [cloud_from exp log prob samp trans none 0]] } := by
  simp [PF_iter, PF_state.andThen, PF_poll, PF_sample, PF_weight, PF_copy_ws, PF_normalize,
    PF_retire, PF_state.write, PF_state.record, PF_state.stop, back, set_back, hexit, hout,
    hpoll, cloud_from, copied_from, weighted_from, sampled_from, sample_call, weight_call]

/-- A later iteration, from a state in which `out` ends with the cloud `c`. -/
theorem PF_iter_next (st : PF_state D P α) (i : Nat) (pre : List (particle_cloud P α))
    (c : particle_cloud P α) (hexit : st.exit = none) (hout : st.out = pre ++ [c])
    (hi : 0 < i) (hpoll : ¬ (i % 10 = 0 ∧ interrupt i = true)) :
    PF_iter exp log prob samp trans interrupt st i =
      { out := pre ++ [retired c, cloud_from exp log prob samp trans (some c) i]
        exit := none
        calls := st.calls ++ [sample_call prob (some c) i, weight_call prob samp (some c) i]
        ess := st.ess ++
          [(normalize_log_weights exp log (weighted_from prob samp trans (some c) i).ws).2]
        seen := st.seen ++
          [pre ++ [c, sampled_from prob samp (some c) i],
           pre ++ [c, weighted_from prob samp trans (some c) i],
           pre ++ [c, copied_from prob samp trans (some c) i],
           pre ++ [c, cloud_from exp log prob samp trans (some c) i],
           pre ++ [retired c, cloud_from exp log prob samp trans (some c) i]] } := by
  have hi0 : i ≠ 0 := Nat.pos_iff_ne_zero.mp hi
  have e1 : ∀ x : particle_cloud P α, pre ++ [c] ++ [x] = pre ++ [c, x] := by
    intro x
    simp
  have e2 : ∀ x y : particle_cloud P α, set_back (pre ++ [c, x]) y = pre ++ [c, y] := by
    intro x y
    have h : pre ++ [c, x] = (pre ++ [c]) ++ [x] := by simp
    rw [h, set_back_concat]
    simp
  have e3 : ∀ x : particle_cloud P α, back (pre ++ [c, x]) = some x := by
    intro x
    have h : pre ++ [c, x] = (pre ++ [c]) ++ [x] := by simp
    rw [h, back_concat]
  simp only [PF_iter, PF_state.andThen, PF_poll, PF_sample, PF_weight, PF_copy_ws,
    PF_normalize, PF_retire, PF_state.write, PF_state.record, PF_state.stop, hexit, hout,
    if_neg hpoll, if_neg hi0, if_pos hi, back_concat, rbegin1_concat, e1, e2, e3,
    set_rbegin1_concat, gt_iff_lt]
  simp [cloud_from, copied_from, weighted_from, sampled_from, sample_call, weight_call, retired]

/-- Once the run has stopped no statement runs any more. -/
theorem PF_iter_stopped (st : PF_state D P α) (i : Nat) (e : PF_exit)
    (hexit : st.exit = some e) :
    PF_iter exp log prob samp trans interrupt st i = st := by
  simp [PF_iter, PF_state.andThen, hexit]

/-- An iteration that finds an interrupt pending stops the run and leaves the rest
of the state as it is. -/
theorem PF_iter_interrupted (st : PF_state D P α) (i : Nat) (hexit : st.exit = none)
    (hpoll : i % 10 = 0 ∧ interrupt i = true) :
    PF_iter exp log prob samp trans interrupt st i = st.stop PF_exit.interrupt := by
  simp [PF_iter, PF_state.andThen, PF_poll, hexit, hpoll, PF_state.stop]

theorem PF_loop_succ (k : Nat) :
    PF_loop exp log prob samp trans interrupt (k + 1) =
      PF_iter exp log prob samp trans interrupt
        (PF_loop exp log prob samp trans interrupt k) k := by
  simp [PF_loop, List.range_succ, List.foldl_append]

/-- An iteration that is not interrupted takes the state after `k` steps to the
state after `k + 1` steps. -/
theorem PF_iter_after (k : Nat) (hpoll : ¬ (k % 10 = 0 ∧ interrupt k = true)) :
    PF_iter exp log prob samp trans interrupt (PF_after exp log prob samp trans k none) k =
      PF_after exp log prob samp trans (k + 1) none := by
  cases k with
  | zero =>
    have h0 : interrupt 0 = false := by
      simpa using hpoll
    rw [PF_iter_first exp log prob samp trans interrupt _ rfl rfl h0]
    simp [PF_after, out_after, calls_upto, calls_at, ess_upto, ess_at, seen_upto, seen_at,
      old_at, cloud_at]
  | succ j =>
    rw [PF_iter_next exp log prob samp trans interrupt _ (j + 1)
      ((List.range j).map (fun t => retired (cloud_at exp log prob samp trans t)))
      (cloud_at exp log prob samp trans j) rfl rfl (Nat.succ_pos j) hpoll]
    simp [PF_after, out_after, calls_upto, calls_at, ess_upto, ess_at,
      seen_upto, seen_at, old_at, cloud_at, List.range_succ]

/-- Every state of the loop is the state after `m` uninterrupted steps, where
`m` is the number of steps done: either all `k` of them, or those before the
first iteration `m < k` that found an interrupt pending. -/
theorem PF_loop_eq (k : Nat) :
    ∃ m, m ≤ k ∧ (∀ i, i < m → ¬ (i % 10 = 0 ∧ interrupt i = true)) ∧
      ((m = k ∧ PF_loop exp log prob samp trans interrupt k =
          PF_after exp log prob samp trans m none) ∨
       (m < k ∧ (m % 10 = 0 ∧ interrupt m = true) ∧
          PF_loop exp log prob samp trans interrupt k =
            PF_after exp log prob samp trans m (some PF_exit.interrupt))) := by
  induction k with
  | zero =>
    refine ⟨0, le_refl 0, ?_, Or.inl ⟨rfl, ?_⟩⟩
    · intro i hi
      exact absurd hi (Nat.not_lt_zero i)
    · simp [PF_loop, PF_init, PF_after, out_after, calls_upto, ess_upto, seen_upto]
  | succ k ih =>
    obtain ⟨m, hmk, hbefore, hcase⟩ := ih
    rw [PF_loop_succ]
    rcases hcase with ⟨hm, heq⟩ | ⟨hm, hpoll, heq⟩
    · subst hm
      by_cases hpoll : m % 10 = 0 ∧ interrupt m = true
      · refine ⟨m, Nat.le_succ m, hbefore, Or.inr ⟨Nat.lt_succ_self m, hpoll, ?_⟩⟩
        rw [heq, PF_iter_interrupted exp log prob samp trans interrupt _ m rfl hpoll]
        rfl
      · refine ⟨m + 1, le_refl _, ?_, Or.inl ⟨rfl, ?_⟩⟩
        · intro i hi
          rcases Nat.lt_succ_iff_lt_or_eq.mp hi with h | h
          · exact hbefore i h
          · rw [h]
            exact hpoll
        · rw [heq, PF_iter_after exp log prob samp trans interrupt m hpoll]
    · refine ⟨m, Nat.le_succ_of_le hmk, hbefore, Or.inr ⟨Nat.lt_succ_of_lt hm, hpoll, ?_⟩⟩
      rw [heq, PF_iter_stopped exp log prob samp trans interrupt _ k PF_exit.interrupt rfl]

theorem out_after_length (k : Nat) : (out_after exp log prob samp trans k).length = k := by
  cases k with
  | zero => rfl
  | succ j => simp [out_after]

/-- Element `j` of `out` after `k` steps is the cloud of step `j`, with its stats
cleared unless it is the last one. -/
theorem out_after_getElem (k j : Nat) (hj : j < k) :
    (out_after exp log prob samp trans k)[j]? =
      some (if j + 1 < k then retired (cloud_at exp log prob samp trans j)
        else cloud_at exp log prob samp trans j) := by
  cases k with
  | zero => exact absurd hj (Nat.not_lt_zero j)
  | succ n =>
    by_cases h : j < n
    · have h1 : j + 1 < n + 1 := Nat.succ_lt_succ h
      rw [if_pos h1]
      simp only [out_after]
      rw [List.getElem?_append_left (by simpa using h)]
      simp [List.getElem?_map, List.getElem?_range h]
    · have hjn : j = n := Nat.le_antisymm (Nat.lt_succ_iff.mp hj) (Nat.le_of_not_lt h)
      subst hjn
      rw [if_neg (Nat.lt_irrefl _)]
      simp only [out_after]
      rw [List.getElem?_append_right (by simp)]
      simp

theorem out_after_stats (k j : Nat) (c : particle_cloud P α) (hj : j + 1 < k)
    (hc : (out_after exp log prob samp trans k)[j]? = some c) : c.stats = [] := by
  rw [out_after_getElem exp log prob samp trans k j (Nat.lt_of_succ_lt hj), if_pos hj] at hc
  rw [← Option.some.inj hc]
  rfl

theorem out_after_concat_stats (k j : Nat) (x c : particle_cloud P α)
    (hj : j + 2 < (out_after exp log prob samp trans k ++ [x]).length)
    (hc : (out_after exp log prob samp trans k ++ [x])[j]? = some c) : c.stats = [] := by
  have hlen := out_after_length exp log prob samp trans k
  have hj1 : j + 1 < k := by
    simp [hlen] at hj
    omega
  rw [List.getElem?_append_left (by rw [hlen]; omega)] at hc
  exact out_after_stats exp log prob samp trans k j c hj1 hc

/-- In every value `out` has had by the end of step `m - 1`, the clouds other
than the last two have an empty stats buffer. -/
theorem seen_upto_stats (m : Nat) :
    ∀ p ∈ seen_upto exp log prob samp trans m, ∀ (j : Nat) (c : particle_cloud P α),
      j + 2 < p.length → p[j]? = some c → c.stats = [] := by
  induction m with
  | zero =>
    intro p hp j c hj _
    simp [seen_upto] at hp
    subst hp
    simp at hj
  | succ m ih =>
    intro p hp j c hj hc
    simp only [seen_upto, List.mem_append] at hp
    rcases hp with hp | hp
    · exact ih p hp j c hj hc
    · simp only [seen_at, List.mem_append, List.mem_cons, List.mem_singleton,
        List.not_mem_nil, or_false] at hp
      rcases hp with (rfl | rfl | rfl | rfl) | hp
      · exact out_after_concat_stats exp log prob samp trans m j _ c hj hc
      · exact out_after_concat_stats exp log prob samp trans m j _ c hj hc
      · exact out_after_concat_stats exp log prob samp trans m j _ c hj hc
      · exact out_after_concat_stats exp log prob samp trans m j _ c hj hc
      · split_ifs at hp with hm
        · simp only [List.mem_singleton] at hp
          subst hp
          rw [out_after_length] at hj
          exact out_after_stats exp log prob samp trans (m + 1) j c (by omega) hc
        · simp at hp

/-- A state of the loop in which the run has not stopped is the state after `k`
steps, and no iteration before has found an interrupt pending. -/
theorem PF_loop_running (k : Nat)
    (h : (PF_loop exp log prob samp trans interrupt k).exit = none) :
    PF_loop exp log prob samp trans interrupt k = PF_after exp log prob samp trans k none ∧
      ∀ i, i < k → ¬ (i % 10 = 0 ∧ interrupt i = true) := by
  obtain ⟨m, _, hbefore, hcase⟩ := PF_loop_eq exp log prob samp trans interrupt k
  rcases hcase with ⟨hm, heq⟩ | ⟨_, _, heq⟩
  · subst hm
    exact ⟨heq, hbefore⟩
  · rw [heq] at h
    simp [PF_after] at h

/-- The run has not stopped after `k` iterations exactly when none of them has
found an interrupt pending. -/
theorem PF_loop_exit_iff (k : Nat) :
    (PF_loop exp log prob samp trans interrupt k).exit = none ↔
      ∀ i, i < k → ¬ (i % 10 = 0 ∧ interrupt i = true) := by
  constructor
  · intro h
    exact (PF_loop_running exp log prob samp trans interrupt k h).2
  · intro h
    obtain ⟨m, _, _, hcase⟩ := PF_loop_eq exp log prob samp trans interrupt k
    rcases hcase with ⟨_, heq⟩ | ⟨hm, hpoll, _⟩
    · rw [heq]
      rfl
    · exact absurd hpoll (h m hm)

/-- The records of every state of the loop are those of `m ≤ k` uninterrupted steps. -/
theorem PF_loop_records (k : Nat) :
    ∃ m, m ≤ k ∧ (∀ i, i < m → ¬ (i % 10 = 0 ∧ interrupt i = true)) ∧
      (m < k → m % 10 = 0 ∧ interrupt m = true) ∧
      (PF_loop exp log prob samp trans interrupt k).out = out_after exp log prob samp trans m ∧
      (PF_loop exp log prob samp trans interrupt k).calls =
        calls_upto exp log prob samp trans m ∧
      (PF_loop exp log prob samp trans interrupt k).ess = ess_upto exp log prob samp trans m ∧
      (PF_loop exp log prob samp trans interrupt k).seen =
        seen_upto exp log prob samp trans m := by
  obtain ⟨m, hmk, hbefore, hcase⟩ := PF_loop_eq exp log prob samp trans interrupt k
  rcases hcase with ⟨hm, heq⟩ | ⟨hm, hpoll, heq⟩
  · exact ⟨m, hmk, hbefore, fun h => absurd hm (Nat.ne_of_lt h), by rw [heq]; rfl,
      by rw [heq]; rfl, by rw [heq]; rfl, by rw [heq]; rfl⟩
  · exact ⟨m, hmk, hbefore, fun _ => hpoll, by rw [heq]; rfl, by rw [heq]; rfl,
      by rw [heq]; rfl, by rw [heq]; rfl⟩

/-- The value `PF` returns: it returns one exactly when no iteration finds an
interrupt pending, and then it is `out` after `n_periods` steps. -/
theorem PF_eq_some_iff (out : List (particle_cloud P α)) :
    PF exp log prob samp trans interrupt = some out ↔
      (∀ i, i < prob.n_periods → ¬ (i % 10 = 0 ∧ interrupt i = true)) ∧
        out = out_after exp log prob samp trans prob.n_periods := by
  unfold PF PF_run
  cases hexit : (PF_loop exp log prob samp trans interrupt prob.n_periods).exit with
  | none =>
    obtain ⟨heq, hno⟩ := PF_loop_running exp log prob samp trans interrupt _ hexit
    simp only [Option.some.injEq]
    rw [heq]
    constructor
    · intro h
      exact ⟨hno, h.symm⟩
    · intro h
      exact h.2.symm
  | some e =>
    constructor
    · intro h
      cases h
    · rintro ⟨hno, _⟩
      have := (PF_loop_exit_iff exp log prob samp trans interrupt prob.n_periods).mpr hno
      rw [hexit] at this
      cases this

/-- C6: `PF` returns (it does unless an iteration finds an interrupt pending), and
the vector it returns has exactly `n_periods` clouds, in time order: element `k`
is the cloud created at step `k`, with the particles, the raw weights and the
normalized weights that step `k` computed; every cloud but the last one, hence
every cloud except the last two, has an empty stats buffer, and the last one is
as its step left it. -/
theorem PF_returns_clouds :
    ((PF exp log prob samp trans interrupt).isSome = true ↔
        ∀ i, i < prob.n_periods → ¬ (i % 10 = 0 ∧ interrupt i = true)) ∧
    ∀ out, PF exp log prob samp trans interrupt = some out →
      out.length = prob.n_periods ∧
      ∀ k, k < prob.n_periods → ∃ c, out[k]? = some c ∧
        c.particles = (cloud_at exp log prob samp trans k).particles ∧
        c.ws = (cloud_at exp log prob samp trans k).ws ∧
        c.ws_normalized = (cloud_at exp log prob samp trans k).ws_normalized ∧
        (k + 2 < prob.n_periods → c.stats = []) ∧
        (k + 1 < prob.n_periods → c.stats = []) ∧
        (k + 1 = prob.n_periods → c = cloud_at exp log prob samp trans k) := by
  constructor
  · rw [Option.isSome_iff_exists]
    constructor
    · rintro ⟨out, hout⟩
      exact ((PF_eq_some_iff exp log prob samp trans interrupt out).mp hout).1
    · intro hno
      exact ⟨_, (PF_eq_some_iff exp log prob samp trans interrupt _).mpr ⟨hno, rfl⟩⟩
  · intro out hout
    obtain ⟨_, rfl⟩ := (PF_eq_some_iff exp log prob samp trans interrupt out).mp hout
    refine ⟨out_after_length exp log prob samp trans _, ?_⟩
    intro k hk
    refine ⟨_, out_after_getElem exp log prob samp trans _ k hk, ?_⟩
    by_cases hlast : k + 1 < prob.n_periods
    · rw [if_pos hlast]
      exact ⟨rfl, rfl, rfl, fun _ => rfl, fun _ => rfl,
        fun h => absurd h (Nat.ne_of_lt hlast)⟩
    · rw [if_neg hlast]
      exact ⟨rfl, rfl, rfl, fun h => absurd (Nat.lt_of_succ_lt h) hlast,
        fun h => absurd h hlast, fun _ => rfl⟩

theorem PF_returns_clouds_witness :
    ∃ out, PF (fun x : ℚ => x) (fun x : ℚ => x) small_problem (small_sampler ℚ)
        (small_helper ℚ) (fun _ => false) = some out ∧
      out.length = 3 ∧
      ∃ c, out[0]? = some c ∧ c.stats = [] ∧ c.ws = [0, 0] := by
  have h := PF_returns_clouds (fun x : ℚ => x) (fun x : ℚ => x) small_problem
    (small_sampler ℚ) (small_helper ℚ) (fun _ => false)
  have hs := h.1.mpr (by intro i _; simp)
  obtain ⟨out, hout⟩ := Option.isSome_iff_exists.mp hs
  obtain ⟨hlen, hel⟩ := h.2 out hout
  obtain ⟨c, hc, _, hws, _, _, hst, _⟩ := hel 0 (by decide)
  refine ⟨out, hout, hlen, c, hc, hst (by decide), ?_⟩
  rw [hws]
  rfl

/-- C5: once iteration `i = j + 1 >= 1` has finished, the stats buffer of cloud
`i - 1` is empty and the stats buffer of cloud `i` is what `set_ll_n_stat` has
written into it; and in every value `out` has in a run, the clouds other than
the last two (the new one and the previous one) have an empty stats buffer, so
at most two clouds have a non-empty one. -/
theorem PF_stats_buffers :
    (∀ j, j + 1 < prob.n_periods →
      (PF_loop exp log prob samp trans interrupt (j + 2)).exit = none →
      ∃ prev cur,
        (PF_loop exp log prob samp trans interrupt (j + 2)).out[j]? = some prev ∧
        (PF_loop exp log prob samp trans interrupt (j + 2)).out[j + 1]? = some cur ∧
        prev.stats = [] ∧
        cur.stats =
          (trans.set_ll_n_stat prob (cloud_at exp log prob samp trans j)
            (samp.sample prob (prob.get_obs_dist (j + 1)) (cloud_at exp log prob samp trans j)
              (j + 1))
            (prob.get_obs_dist (j + 1)) (j + 1)).stats) ∧
    (∀ k, k ≤ prob.n_periods →
      ∀ p ∈ (PF_loop exp log prob samp trans interrupt k).seen,
        (∀ (t : Nat) (c : particle_cloud P α), t + 2 < p.length → p[t]? = some c →
          c.stats = []) ∧
        (p.filter (fun c => !c.stats.isEmpty)).length ≤ 2) := by
  constructor
  · intro j _ hexit
    obtain ⟨heq, _⟩ := PF_loop_running exp log prob samp trans interrupt (j + 2) hexit
    rw [heq]
    refine ⟨_, _, out_after_getElem exp log prob samp trans (j + 2) j (by omega),
      out_after_getElem exp log prob samp trans (j + 2) (j + 1) (by omega), ?_, ?_⟩
    · rw [if_pos (by omega)]
      rfl
    · rw [if_neg (by omega)]
      rfl
  · intro k _ p hp
    obtain ⟨m, _, _, _, _, _, _, hseen⟩ :=
      PF_loop_records exp log prob samp trans interrupt k
    rw [hseen] at hp
    have h := seen_upto_stats exp log prob samp trans m p hp
    exact ⟨h, filter_stats_le_two p h⟩

theorem PF_stats_buffers_witness :
    ∃ prev cur,
      (PF_loop (fun x : ℚ => x) (fun x : ℚ => x) small_problem (small_sampler ℚ)
        (small_helper ℚ) (fun _ => false) 2).out[0]? = some prev ∧
      (PF_loop (fun x : ℚ => x) (fun x : ℚ => x) small_problem (small_sampler ℚ)
        (small_helper ℚ) (fun _ => false) 2).out[1]? = some cur ∧
      prev.stats = [] ∧ cur.stats = [1] := by
  have h := (PF_stats_buffers (fun x : ℚ => x) (fun x : ℚ => x) small_problem
    (small_sampler ℚ) (small_helper ℚ) (fun _ => false)).1 0 (by decide) (by rfl)
  obtain ⟨prev, cur, h0, h1, hprev, hcur⟩ := h
  exact ⟨prev, cur, h0, h1, hprev, by rw [hcur]; rfl⟩

theorem cloud_at_eq (k : Nat) :
    cloud_at exp log prob samp trans k =
      cloud_from exp log prob samp trans (old_at exp log prob samp trans k) k := by
  cases k <;> rfl

theorem calls_upto_length (m : Nat) :
    (calls_upto exp log prob samp trans m).length = 2 * m := by
  induction m with
  | zero => rfl
  | succ m ih =>
    simp only [calls_upto, calls_at, List.length_append, ih, List.length_cons,
      List.length_nil]
    omega

/-- The calls of step `i` are the entries `2 i` and `2 i + 1` of the record. -/
theorem calls_upto_getElem (m i : Nat) (hi : i < m) :
    (calls_upto exp log prob samp trans m)[2 * i]? =
        some (sample_call prob (old_at exp log prob samp trans i) i) ∧
      (calls_upto exp log prob samp trans m)[2 * i + 1]? =
        some (weight_call prob samp (old_at exp log prob samp trans i) i) := by
  induction m with
  | zero => exact absurd hi (Nat.not_lt_zero i)
  | succ m ih =>
    have hlen := calls_upto_length exp log prob samp trans m
    simp only [calls_upto]
    by_cases h : i < m
    · obtain ⟨h0, h1⟩ := ih h
      rw [List.getElem?_append_left (by rw [hlen]; omega),
        List.getElem?_append_left (by rw [hlen]; omega)]
      exact ⟨h0, h1⟩
    · have him : i = m := Nat.le_antisymm (Nat.lt_succ_iff.mp hi) (Nat.le_of_not_lt h)
      subst him
      rw [List.getElem?_append_right (by rw [hlen]),
        List.getElem?_append_right (by rw [hlen]; omega), hlen]
      simp [calls_at]

/-- C7: at every step `i < n_periods` that the run reaches and is not interrupted
at, the sampler is called as `sample_first` if and only if `i = 0`, with the
density of period `0`, and otherwise as `sample` with the density of period `i`,
the cloud of step `i - 1` and `i`; `set_ll_n_stat` is called in its first-step
form if and only if `i = 0`, with the new cloud and the density, and otherwise
with the cloud of step `i - 1`, the new cloud, the density and `i`.  The cloud of
step `i - 1` is element `i - 1` of `out` when step `i` starts, and it carries the
stats that `set_ll_n_stat` wrote at step `i - 1`. -/
theorem PF_calls_at_step (i : Nat) (hi : i < prob.n_periods)
    (hrun : ∀ t, t ≤ i → ¬ (t % 10 = 0 ∧ interrupt t = true)) :
    ((∃ d, (PF_run exp log prob samp trans interrupt).calls[2 * i]? =
        some (PF_call.sample_first d)) ↔ i = 0) ∧
    ((∃ c d, (PF_run exp log prob samp trans interrupt).calls[2 * i + 1]? =
        some (PF_call.set_ll_n_stat_first c d)) ↔ i = 0) ∧
    (i = 0 →
      (PF_run exp log prob samp trans interrupt).calls[2 * i]? =
        some (PF_call.sample_first (prob.get_obs_dist 0)) ∧
      (PF_run exp log prob samp trans interrupt).calls[2 * i + 1]? =
        some (PF_call.set_ll_n_stat_first (samp.sample_first prob (prob.get_obs_dist 0))
          (prob.get_obs_dist 0))) ∧
    (∀ j, i = j + 1 →
      (PF_run exp log prob samp trans interrupt).calls[2 * i]? =
        some (PF_call.sample (prob.get_obs_dist i) (cloud_at exp log prob samp trans j) i) ∧
      (PF_run exp log prob samp trans interrupt).calls[2 * i + 1]? =
        some (PF_call.set_ll_n_stat (cloud_at exp log prob samp trans j)
          (samp.sample prob (prob.get_obs_dist i) (cloud_at exp log prob samp trans j) i)
          (prob.get_obs_dist i) i) ∧
      (PF_loop exp log prob samp trans interrupt i).out[j]? =
        some (cloud_at exp log prob samp trans j) ∧
      (cloud_at exp log prob samp trans j).stats =
        (weighted_from prob samp trans (old_at exp log prob samp trans j) j).stats) := by
  obtain ⟨m, hmn, _, hstop, _, hcalls, _, _⟩ :=
    PF_loop_records exp log prob samp trans interrupt prob.n_periods
  have him : i < m := by
    by_contra hcon
    have hmi : m ≤ i := Nat.le_of_not_lt hcon
    exact hrun m hmi (hstop (Nat.lt_of_le_of_lt hmi hi))
  obtain ⟨h0, h1⟩ := calls_upto_getElem exp log prob samp trans m i him
  unfold PF_run
  rw [hcalls, h0, h1]
  cases i with
  | zero =>
    refine ⟨⟨fun _ => rfl, fun _ => ⟨_, rfl⟩⟩, ⟨fun _ => rfl, fun _ => ⟨_, _, rfl⟩⟩,
      fun _ => ⟨rfl, rfl⟩, ?_⟩
    intro j hj
    cases hj
  | succ j =>
    refine ⟨⟨?_, fun h => absurd h (Nat.succ_ne_zero j)⟩,
      ⟨?_, fun h => absurd h (Nat.succ_ne_zero j)⟩,
      fun h => absurd h (Nat.succ_ne_zero j), ?_⟩
    · rintro ⟨d, hd⟩
      simp [sample_call, old_at] at hd
    · rintro ⟨c, d, hd⟩
      simp [weight_call, old_at] at hd
    · intro t ht
      have htj : j = t := Nat.succ.inj ht
      subst htj
      have hexit := (PF_loop_exit_iff exp log prob samp trans interrupt (j + 1)).mpr
        (fun t ht => hrun t (Nat.le_of_lt ht))
      obtain ⟨heq, _⟩ := PF_loop_running exp log prob samp trans interrupt (j + 1) hexit
      refine ⟨rfl, rfl, ?_, by rw [cloud_at_eq]; rfl⟩
      rw [heq]
      have := out_after_getElem exp log prob samp trans (j + 1) j (Nat.lt_succ_self j)
      rw [if_neg (Nat.lt_irrefl _)] at this
      exact this

theorem PF_calls_at_step_witness :
    (1 : Nat) < (small_problem).n_periods ∧
    (∀ t, t ≤ 1 → ¬ (t % 10 = 0 ∧ (fun _ : Nat => false) t = true)) ∧
    (PF_run (fun x : ℚ => x) (fun x : ℚ => x) small_problem (small_sampler ℚ)
        (small_helper ℚ) (fun _ => false)).calls[2 * 1]? =
      some (PF_call.sample 1
        (cloud_at (fun x : ℚ => x) (fun x : ℚ => x) small_problem (small_sampler ℚ)
          (small_helper ℚ) 0) 1) := by
  have hi : (1 : Nat) < (small_problem).n_periods := by decide
  have hrun : ∀ t, t ≤ 1 → ¬ (t % 10 = 0 ∧ (fun _ : Nat => false) t = true) := by
    intro t _
    simp
  exact ⟨hi, hrun,
    ((PF_calls_at_step (fun x : ℚ => x) (fun x : ℚ => x) small_problem (small_sampler ℚ)
      (small_helper ℚ) (fun _ => false) 1 hi hrun).2.2.2 0 rfl).1⟩

/-- Every cloud of `out` has in `ws_normalized` what `normalize_log_weights`
leaves of its `ws`. -/
theorem out_after_ws_normalized (m : Nat) :
    ∀ c ∈ out_after exp log prob samp trans m,
      c.ws_normalized = (normalize_log_weights exp log c.ws).1 := by
  intro c hc
  obtain ⟨j, hj⟩ := List.mem_iff_getElem?.mp hc
  have hjm : j < m := by
    by_contra hcon
    have hlen := out_after_length exp log prob samp trans m
    rw [List.getElem?_eq_none (by rw [hlen]; exact Nat.le_of_not_lt hcon)] at hj
    cases hj
  rw [out_after_getElem exp log prob samp trans m j hjm] at hj
  have hc' := (Option.some.inj hj).symm
  split_ifs at hc' <;>
  · rw [hc', cloud_at_eq]
    rfl

/-- Every effective sample size of the record is the one of a step, computed
from the weights that `set_ll_n_stat` has written. -/
theorem ess_upto_mem (m : Nat) :
    ∀ e ∈ ess_upto exp log prob samp trans m, ∃ k, k < m ∧
      e = (normalize_log_weights exp log
        (weighted_from prob samp trans (old_at exp log prob samp trans k) k).ws).2 := by
  induction m with
  | zero =>
    intro e he
    cases he
  | succ m ih =>
    intro e he
    simp only [ess_upto, List.mem_append, List.mem_singleton] at he
    rcases he with he | he
    · obtain ⟨k, hk, hek⟩ := ih e he
      exact ⟨k, Nat.lt_succ_of_lt hk, hek⟩
    · exact ⟨m, Nat.lt_succ_self m, he⟩

end PF_lemmas

/-! ## The weights and the effective sample sizes of a run -/

section PF_real

theorem normalize_log_weights_ess_bounds (l : List ℝ) (hl : l ≠ []) :
    1 ≤ (normalize_log_weights Real.exp Real.log l).2 ∧
      (normalize_log_weights Real.exp Real.log l).2 ≤ (l.length : ℝ) := by
  rw [normalize_log_weights_eq l hl]
  have hN : (0 : ℝ) < l.length := by
    have : 0 < l.length := List.length_pos.mpr hl
    exact_mod_cast this
  obtain ⟨hlow, hup⟩ := sum_sq_normalized_weights_bounds l hl
  have hQ0 : 0 < ((normalized_weights Real.exp l).map (fun w => w * w)).sum :=
    lt_of_lt_of_le (one_div_pos.mpr hN) hlow
  simp only
  constructor
  · rw [le_div_iff₀ hQ0]
    linarith
  · rw [div_le_iff₀ hQ0]
    rw [div_le_iff₀ hN] at hlow
    linarith

/-- In exact arithmetic: for a non-empty vector of `N` log-weights, the value of
`normalize_log_weights` lies between `1` and `N`; hence, when the stats helper
leaves `N_part > 0` log-weights in every new cloud, every effective sample size
that a run of `PF` records lies in `[1, N_part]`.  This is a fact of the exact
reading only: on doubles the sums and quotients round, and the bounds are not
a statement about the value the code returns. -/
theorem normalize_log_weights_ess_range :
    (∀ l : List ℝ, l ≠ [] →
      1 ≤ (normalize_log_weights Real.exp Real.log l).2 ∧
        (normalize_log_weights Real.exp Real.log l).2 ≤ (l.length : ℝ)) ∧
    (∀ (D P : Type) (prob : problem_data D) (samp : sampler D P ℝ)
      (trans : stats_comp_helper D P ℝ) (interrupt : Nat → Bool),
      0 < prob.N_part →
      (∀ c d, (trans.set_ll_n_stat_first prob c d).ws.length = prob.N_part) →
      (∀ o c d i, (trans.set_ll_n_stat prob o c d i).ws.length = prob.N_part) →
      ∀ e ∈ (PF_run Real.exp Real.log prob samp trans interrupt).ess,
        1 ≤ e ∧ e ≤ (prob.N_part : ℝ)) := by
  refine ⟨normalize_log_weights_ess_bounds, ?_⟩
  intro D P prob samp trans interrupt hN hfirst hnext e he
  obtain ⟨m, _, _, _, _, _, hess, _⟩ :=
    PF_loop_records Real.exp Real.log prob samp trans interrupt prob.n_periods
  unfold PF_run at he
  rw [hess] at he
  obtain ⟨k, _, rfl⟩ := ess_upto_mem Real.exp Real.log prob samp trans m e he
  have hlen : (weighted_from prob samp trans
      (old_at Real.exp Real.log prob samp trans k) k).ws.length = prob.N_part := by
    cases old_at Real.exp Real.log prob samp trans k with
    | none => exact hfirst _ _
    | some o => exact hnext _ _ _ _
  have hne : (weighted_from prob samp trans
      (old_at Real.exp Real.log prob samp trans k) k).ws ≠ [] := by
    intro h
    rw [h] at hlen
    simp at hlen
    omega
  have h := normalize_log_weights_ess_bounds _ hne
  rw [hlen] at h
  exact h

theorem normalize_log_weights_ess_range_witness :
    (1 ≤ (normalize_log_weights Real.exp Real.log [0, 1]).2 ∧
      (normalize_log_weights Real.exp Real.log [0, 1]).2 ≤ (([0, 1] : List ℝ).length : ℝ)) ∧
    (∀ e ∈ (PF_run Real.exp Real.log small_problem (small_sampler ℝ) (small_helper ℝ)
        (fun _ => false)).ess,
      1 ≤ e ∧ e ≤ ((small_problem).N_part : ℝ)) :=
  ⟨normalize_log_weights_ess_range.1 [0, 1] (by simp),
    normalize_log_weights_ess_range.2 Nat Nat small_problem (small_sampler ℝ) (small_helper ℝ)
      (fun _ => false) (by decide) (fun _ _ => rfl) (fun _ _ _ _ => rfl)⟩

/-- C1, as the code has it: for a non-empty vector of log-weights, the vector
that `normalize_log_weights` has overwritten holds the logarithms of the
normalized weights, so the exponentials of its entries sum to 1; the same holds
for the `ws_normalized` of every cloud of `out` whose `ws` is not empty. -/
theorem normalize_log_weights_vector :
    (∀ l : List ℝ, l ≠ [] →
      (normalize_log_weights Real.exp Real.log l).1 =
          (normalized_weights Real.exp l).map Real.log ∧
        (normalized_weights Real.exp l).sum = 1 ∧
        ((normalize_log_weights Real.exp Real.log l).1.map Real.exp).sum = 1) ∧
    (∀ (D P : Type) (prob : problem_data D) (samp : sampler D P ℝ)
      (trans : stats_comp_helper D P ℝ) (interrupt : Nat → Bool) (k : Nat),
      ∀ c ∈ (PF_loop Real.exp Real.log prob samp trans interrupt k).out, c.ws ≠ [] →
        c.ws_normalized = (normalized_weights Real.exp c.ws).map Real.log ∧
          (c.ws_normalized.map Real.exp).sum = 1) := by
  have hfirst : ∀ l : List ℝ, l ≠ [] →
      (normalize_log_weights Real.exp Real.log l).1 =
          (normalized_weights Real.exp l).map Real.log ∧
        (normalized_weights Real.exp l).sum = 1 ∧
        ((normalize_log_weights Real.exp Real.log l).1.map Real.exp).sum = 1 := by
    intro l hl
    rw [normalize_log_weights_eq l hl]
    refine ⟨rfl, normalized_weights_sum l hl, ?_⟩
    simp only
    rw [exp_log_normalized_weights l hl]
    exact normalized_weights_sum l hl
  refine ⟨hfirst, ?_⟩
  intro D P prob samp trans interrupt k c hc hws
  obtain ⟨m, _, _, _, hout, _, _, _⟩ :=
    PF_loop_records Real.exp Real.log prob samp trans interrupt k
  rw [hout] at hc
  have h := out_after_ws_normalized Real.exp Real.log prob samp trans m c hc
  obtain ⟨h1, _, h3⟩ := hfirst c.ws hws
  rw [h]
  exact ⟨h1, h3⟩

theorem normalize_log_weights_vector_witness :
    (normalize_log_weights Real.exp Real.log [0, 1]).1 =
        (normalized_weights Real.exp [0, 1]).map Real.log ∧
      (normalized_weights Real.exp [0, 1]).sum = 1 ∧
      ((normalize_log_weights Real.exp Real.log [0, 1]).1.map Real.exp).sum = 1 :=
  normalize_log_weights_vector.1 [0, 1] (by simp)

/-- C1, as stated, fails: for the vector with the single log-weight `0` the
vector that `normalize_log_weights` leaves is `[0]`, and its entries sum to `0`,
not to `1`. -/
theorem normalize_log_weights_sum_ne_one :
    ([0] : List ℝ) ≠ [] ∧
      (normalize_log_weights Real.exp Real.log [0]).1 = [0] ∧
      (normalize_log_weights Real.exp Real.log [0]).1.sum ≠ 1 := by
  have h : (normalize_log_weights Real.exp Real.log [0]).1 = [0] := by
    rw [normalize_log_weights_eq [0] (by simp)]
    simp [normalized_weights]
  refine ⟨by simp, h, ?_⟩
  rw [h]
  simp

end PF_real

/-! ## The proposal variant and the accumulation of statistics -/

section proposal_lemmas

variable {α : Type} [LinearOrderedField α]

/-- C8: for all inputs of `mode_approximation`, `nu <= 0` yields a
multivariate-normal proposal and `nu > 0` a multivariate-t proposal, with `nu`
degrees of freedom, and two proposals obtained from inputs that differ only in
`nu` have the same mean. -/
theorem mode_approximation_variant {C : Type}
    (optimize : List C → List α → α → mode_search α) (cdists : List C) (start : List α)
    (nu nu' covar_fac ftol_rel : α) :
    (nu ≤ 0 →
      (mode_approximation optimize cdists start nu covar_fac ftol_rel).proposal.is_mv_norm
        = true) ∧
    (0 < nu →
      (mode_approximation optimize cdists start nu covar_fac ftol_rel).proposal.is_mv_tdist
        = true ∧
      ∃ m v, (mode_approximation optimize cdists start nu covar_fac ftol_rel).proposal =
        proposal_dist.mv_tdist m v nu) ∧
    (mode_approximation optimize cdists start nu covar_fac ftol_rel).proposal.mean =
      (mode_approximation optimize cdists start nu' covar_fac ftol_rel).proposal.mean := by
  refine ⟨?_, ?_, ?_⟩
  · intro h
    simp [mode_approximation, h, proposal_dist.is_mv_norm]
  · intro h
    have h' : ¬ nu ≤ 0 := not_le.mpr h
    simp [mode_approximation, h', proposal_dist.is_mv_tdist]
  · by_cases h : nu ≤ 0 <;> by_cases h' : nu' ≤ 0 <;>
      simp [mode_approximation, h, h', proposal_dist.mean]

/-- The two calls of `test-proposal-dist.cpp` that differ only in `nu`, `-1` and
`4`: the first proposal is a `mv_norm`, the second a `mv_tdist`, with the same
mean. -/
theorem mode_approximation_variant_witness :
    (mode_approximation (fun (_ : List Unit) (start : List ℚ) _ => mode_search.mk start [] false)
        [(), ()] [0, 0] (-1) 1 (1 / 10)).proposal.is_mv_norm = true ∧
    (mode_approximation (fun (_ : List Unit) (start : List ℚ) _ => mode_search.mk start [] false)
        [(), ()] [0, 0] 4 1 (1 / 10)).proposal.is_mv_tdist = true ∧
    (mode_approximation (fun (_ : List Unit) (start : List ℚ) _ => mode_search.mk start [] false)
        [(), ()] [0, 0] (-1) 1 (1 / 10)).proposal.mean =
      (mode_approximation (fun (_ : List Unit) (start : List ℚ) _ => mode_search.mk start [] false)
        [(), ()] [0, 0] 4 1 (1 / 10)).proposal.mean := by
  have h1 := mode_approximation_variant
    (fun (_ : List Unit) (start : List ℚ) _ => mode_search.mk start [] false)
    [(), ()] [0, 0] (-1) 4 1 (1 / 10)
  have h2 := mode_approximation_variant
    (fun (_ : List Unit) (start : List ℚ) _ => mode_search.mk start [] false)
    [(), ()] [0, 0] 4 4 1 (1 / 10)
  exact ⟨h1.1 (by norm_num), (h2.2.1 (by norm_num)).1, h1.2.2⟩

theorem accumulate_nil_right (b : List α) : accumulate b [] = b := by
  cases b <;> rfl

theorem buffer_add_zeros (b : List α) : buffer_add b (List.replicate b.length 0) = b := by
  induction b with
  | nil => rfl
  | cons x xs ih =>
    simp only [buffer_add] at ih
    simp [buffer_add, List.replicate_succ, ih]

theorem accumulate_length (b s : List α) : (accumulate b s).length = b.length := by
  induction b generalizing s with
  | nil => cases s <;> rfl
  | cons x xs ih =>
    cases s with
    | nil => rfl
    | cons y ys => simp [accumulate, ih]

/-- Accumulation adds to the buffer what it leaves in an all-zero buffer. -/
theorem accumulate_eq_add (b s : List α) :
    accumulate b s = buffer_add b (accumulate (List.replicate b.length 0) s) := by
  induction b generalizing s with
  | nil => cases s <;> rfl
  | cons x xs ih =>
    cases s with
    | nil =>
      rw [accumulate_nil_right, accumulate_nil_right, buffer_add_zeros]
    | cons y ys =>
      have h := ih ys
      simp only [buffer_add] at h
      simp only [accumulate, List.length_cons, List.replicate_succ, buffer_add,
        List.zipWith_cons_cons, zero_add]
      rw [← h]

/-- C9: for every component, state vector `x`, requested statistic and initial
content `b` of the buffer, `comp_stats_state_only` leaves `b + s(x)` in the
buffer, where `s(x)` is what the same call leaves in an all-zero buffer; a
second call adds the same increment again. -/
theorem comp_stats_state_only_adds (c : cdist α) (x b : List α) (what : comp_out) :
    c.comp_stats_state_only x b what =
        buffer_add b (c.comp_stats_state_only x (List.replicate b.length 0) what) ∧
    c.comp_stats_state_only x (c.comp_stats_state_only x b what) what =
        buffer_add
          (buffer_add b (c.comp_stats_state_only x (List.replicate b.length 0) what))
          (c.comp_stats_state_only x (List.replicate b.length 0) what) := by
  have h1 : c.comp_stats_state_only x b what =
      buffer_add b (c.comp_stats_state_only x (List.replicate b.length 0) what) :=
    accumulate_eq_add b (c.stats x what)
  refine ⟨h1, ?_⟩
  have h2 := accumulate_eq_add (c.comp_stats_state_only x b what) (c.stats x what)
  have hlen : (c.comp_stats_state_only x b what).length = b.length :=
    accumulate_length b (c.stats x what)
  rw [hlen] at h2
  unfold cdist.comp_stats_state_only at h1 h2 ⊢
  rw [h2, ← h1]

/-- The check of `test-proposal-dist.cpp`: from a buffer filled with `1` the call
leaves the reference value plus `1` in every slot. -/
theorem comp_stats_state_only_adds_witness :
    (cdist.mk (fun _ => 2) (fun (_ : List ℚ) _ => [2, 3])).comp_stats_state_only [0] [1, 1]
        comp_out.gradient = [3, 4] ∧
    (cdist.mk (fun _ => 2) (fun (_ : List ℚ) _ => [2, 3])).comp_stats_state_only [0] [0, 0]
        comp_out.gradient = [2, 3] := by
  have h := (comp_stats_state_only_adds
    (cdist.mk (fun _ => 2) (fun (_ : List ℚ) _ => [2, 3])) [0] [1, 1] comp_out.gradient).1
  refine ⟨?_, by simp [cdist.comp_stats_state_only, accumulate]⟩
  rw [h]
  simp [cdist.comp_stats_state_only, accumulate, buffer_add]
  norm_num

end proposal_lemmas

/-! ## `log_sum_log` -/

section log_sum

/-- Whatever number is subtracted in the exponents and added back, the value is
`log(exp(a) + exp(b))`. -/
theorem log_sum_shifted (a b m : ℝ) :
    Real.log (Real.exp (a - m) + Real.exp (b - m)) + m =
      Real.log (Real.exp a + Real.exp b) := by
  have hm : Real.exp m ≠ 0 := Real.exp_ne_zero m
  have hs : Real.exp a + Real.exp b ≠ 0 :=
    ne_of_gt (add_pos (Real.exp_pos a) (Real.exp_pos b))
  have h : Real.exp (a - m) + Real.exp (b - m) = (Real.exp a + Real.exp b) / Real.exp m := by
    rw [Real.exp_sub, Real.exp_sub, add_div]
  rw [h, Real.log_div hs hm, Real.log_exp]
  ring

theorem log_sum_log_eq (a b : ℝ) :
    log_sum_log Real.exp Real.log a b = Real.log (Real.exp a + Real.exp b) := by
  unfold log_sum_log
  exact log_sum_shifted a b _

/-- C11: for all real `a` and `b`, `log_sum_log(a, b)` is
`log(exp(a) + exp(b))`; it is symmetric in its two arguments and never smaller
than `max(a, b)`. -/
theorem log_sum_log_spec (a b : ℝ) :
    log_sum_log Real.exp Real.log a b = Real.log (Real.exp a + Real.exp b) ∧
      log_sum_log Real.exp Real.log a b = log_sum_log Real.exp Real.log b a ∧
      max a b ≤ log_sum_log Real.exp Real.log a b := by
  refine ⟨log_sum_log_eq a b, ?_, ?_⟩
  · rw [log_sum_log_eq, log_sum_log_eq, add_comm]
  · rw [log_sum_log_eq]
    apply max_le
    · calc a = Real.log (Real.exp a) := (Real.log_exp a).symm
        _ ≤ Real.log (Real.exp a + Real.exp b) :=
          Real.log_le_log (Real.exp_pos a) (by linarith [Real.exp_pos b])
    · calc b = Real.log (Real.exp b) := (Real.log_exp b).symm
        _ ≤ Real.log (Real.exp a + Real.exp b) :=
          Real.log_le_log (Real.exp_pos b) (by linarith [Real.exp_pos a])

/-- At `a = b = 0` the value is `log 2`. -/
theorem log_sum_log_spec_witness :
    log_sum_log Real.exp Real.log 0 0 = Real.log 2 := by
  rw [(log_sum_log_spec 0 0).1, Real.exp_zero]
  norm_num

end log_sum

/-! ## `add_back` -/

section add_back_lemmas

variable {α : Type} [LinearOrderedField α]

theorem zeros_mem (x : arma_obj α) : ∀ d ∈ x.zeros.mem, d = 0 := by
  intro d hd
  simp only [arma_obj.zeros, List.mem_map] at hd
  obtain ⟨_, _, h⟩ := hd
  exact h.symm

/-- C12, as the code has it: right after the construction every element of the
buffer is zero, the size is the one of the original value `v` and the snapshot
is `v`; at every exit of the scope, normal or by an exception, the destructor
adds the snapshot back when the buffer has the size of the snapshot, so that the
buffer ends as its value at the exit plus `v`, and leaves the buffer as it is at
the exit otherwise. -/
theorem add_back_scope_spec (body : arma_obj α → arma_obj α × Bool) (v : arma_obj α) :
    (∀ d ∈ (add_back.construct v).org.mem, d = 0) ∧
    (add_back.construct v).org.n_rows = v.n_rows ∧
    (add_back.construct v).org.n_cols = v.n_cols ∧
    (add_back.construct v).org.mem.length = v.mem.length ∧
    (add_back.construct v).copy = v ∧
    ((body v.zeros).1.same_size v = true →
      add_back_scope body v = ((body v.zeros).1.add v, (body v.zeros).2)) ∧
    ((body v.zeros).1.same_size v = false →
      add_back_scope body v = body v.zeros) := by
  refine ⟨zeros_mem v, rfl, rfl, ?_, rfl, ?_, ?_⟩
  · simp [add_back.construct, arma_obj.zeros]
  · intro h
    simp [add_back_scope, add_back.construct, add_back.destruct, h]
  · intro h
    simp [add_back_scope, add_back.construct, add_back.destruct, h]

/-- A scope that adds `5` and `6` to the two slots and is left by an exception:
the buffer ends with `5 + 1` and `6 + 2`. -/
theorem add_back_scope_spec_witness :
    add_back_scope
        (fun x : arma_obj ℚ => ({ x with mem := List.zipWith (fun a b => a + b) x.mem [5, 6] }, true))
        { n_rows := 2, n_cols := 1, mem := [1, 2] } =
      ({ n_rows := 2, n_cols := 1, mem := [6, 8] }, true) := by
  have h := (add_back_scope_spec
    (fun x : arma_obj ℚ => ({ x with mem := List.zipWith (fun a b => a + b) x.mem [5, 6] }, true))
    { n_rows := 2, n_cols := 1, mem := [1, 2] }).2.2.2.2.2.1 (by rfl)
  rw [h]
  simp [arma_obj.add, arma_obj.zeros]
  norm_num

/-- C12, as stated, fails: the buffer is a 2 by 1 matrix with the elements `1`
and `2`, and the scope makes it a 1 by 2 matrix with the elements `5` and `6`.
At the exit the destructor finds another size and adds nothing: the buffer
ends with `5` and `6`, not with `5 + 1` and `6 + 2`. -/
theorem add_back_scope_resized :
    add_back_scope (fun _ : arma_obj ℚ => ({ n_rows := 1, n_cols := 2, mem := [5, 6] }, false))
        { n_rows := 2, n_cols := 1, mem := [1, 2] } =
      ({ n_rows := 1, n_cols := 2, mem := [5, 6] }, false) ∧
    (add_back_scope (fun _ : arma_obj ℚ => ({ n_rows := 1, n_cols := 2, mem := [5, 6] }, false))
        { n_rows := 2, n_cols := 1, mem := [1, 2] }).1 ≠
      arma_obj.add { n_rows := 1, n_cols := 2, mem := [5, 6] }
        { n_rows := 2, n_cols := 1, mem := [1, 2] } := by
  have h : add_back_scope
      (fun _ : arma_obj ℚ => ({ n_rows := 1, n_cols := 2, mem := [5, 6] }, false))
      { n_rows := 2, n_cols := 1, mem := [1, 2] } =
      ({ n_rows := 1, n_cols := 2, mem := [5, 6] }, false) := by
    simp [add_back_scope, add_back.construct, add_back.destruct, arma_obj.same_size]
  refine ⟨h, ?_⟩
  rw [h]
  simp [arma_obj.add]

end add_back_lemmas

/-! ## The vector that `normalize_log_weights` leaves -/

section log_scale

/-- The logarithm of the normalized weight of `x` is `x - log(Σ_j exp(l_j))`. -/
theorem log_normalized_weights (l : List ℝ) (hl : l ≠ []) :
    (normalized_weights Real.exp l).map Real.log =
      l.map (fun x => x - Real.log (l.map Real.exp).sum) := by
  unfold normalized_weights
  rw [List.map_map]
  apply List.map_congr_left
  intro x _
  simp only [Function.comp]
  rw [Real.log_div (Real.exp_ne_zero x) (ne_of_gt (sum_exp_pos l hl)), Real.log_exp]

/-- The normalized weights do not change when a constant is added to every
log-weight. -/
theorem normalized_weights_shift (l : List ℝ) (c : ℝ) :
    normalized_weights Real.exp (l.map (fun x => x + c)) = normalized_weights Real.exp l := by
  have hsum : ((l.map (fun x => x + c)).map Real.exp).sum =
      (l.map Real.exp).sum / Real.exp (-c) := by
    rw [← sum_exp_shifted, List.map_map]
    congr 1
    apply List.map_congr_left
    intro x _
    simp only [Function.comp, sub_neg_eq_add]
  unfold normalized_weights
  rw [hsum, List.map_map]
  apply List.map_congr_left
  intro x _
  simp only [Function.comp]
  have hc : Real.exp (-c) ≠ 0 := Real.exp_ne_zero _
  have hx : Real.exp (x + c) = Real.exp x / Real.exp (-c) := by
    rw [← Real.exp_sub, sub_neg_eq_add]
  rw [hx]
  by_cases hS : (l.map Real.exp).sum = 0
  · simp [hS]
  · field_simp

/-- The normalized weights of the logarithms of the normalized weights are the
normalized weights. -/
theorem normalized_weights_log (l : List ℝ) (hl : l ≠ []) :
    normalized_weights Real.exp ((normalized_weights Real.exp l).map Real.log) =
      normalized_weights Real.exp l := by
  have h : ∀ v : List ℝ, normalized_weights Real.exp v =
      (v.map Real.exp).map (fun e => e / (v.map Real.exp).sum) := by
    intro v
    simp [normalized_weights, List.map_map, Function.comp]
  rw [h ((normalized_weights Real.exp l).map Real.log), exp_log_normalized_weights l hl,
    normalized_weights_sum l hl]
  simp

theorem normalized_weights_ne_nil (l : List ℝ) (hl : l ≠ []) :
    (normalized_weights Real.exp l).map Real.log ≠ [] := by
  simpa [normalized_weights] using hl

theorem out_after_ws (m j : Nat) {D P : Type} (exp log : ℝ → ℝ) (prob : problem_data D)
    (samp : sampler D P ℝ) (trans : stats_comp_helper D P ℝ) (c : particle_cloud P ℝ)
    (hc : (out_after exp log prob samp trans m)[j]? = some c) :
    c.ws = (weighted_from prob samp trans (old_at exp log prob samp trans j) j).ws := by
  have hjm : j < m := by
    by_contra hcon
    have hlen := out_after_length exp log prob samp trans m
    rw [List.getElem?_eq_none (by rw [hlen]; exact Nat.le_of_not_lt hcon)] at hc
    cases hc
  rw [out_after_getElem exp log prob samp trans m j hjm] at hc
  have hc' := (Option.some.inj hc).symm
  split_ifs at hc' <;>
  · rw [hc', cloud_at_eq]
    rfl

/-- In exact arithmetic: for a non-empty vector `l` of log-weights, entry `i` of
the vector that `normalize_log_weights` leaves is `l_i - log(Σ_j exp(l_j))`, the
logarithm of the normalized weight; the exponentials of the entries sum to 1;
the vector and the value do not change when a constant is added to every entry
of `l`; and a second application leaves the vector and the value as they are.
In a run of `PF`, cloud `j` of `out` has in `ws` the weights that
`set_ll_n_stat` wrote at step `j`, and in `ws_normalized` this vector of them.
The closed form, the invariance and the second application are facts of the
exact reading only: on doubles `exp` underflows to zero for an entry far below
the maximum, whose logarithm is then minus infinity, and every operation
rounds. -/
theorem normalize_log_weights_log_scale :
    (∀ l : List ℝ, l ≠ [] →
      (normalize_log_weights Real.exp Real.log l).1 =
          l.map (fun x => x - Real.log (l.map Real.exp).sum) ∧
        (normalize_log_weights Real.exp Real.log l).1 =
          (normalized_weights Real.exp l).map Real.log ∧
        ((normalize_log_weights Real.exp Real.log l).1.map Real.exp).sum = 1 ∧
        (∀ c : ℝ, normalize_log_weights Real.exp Real.log (l.map (fun x => x + c)) =
          normalize_log_weights Real.exp Real.log l) ∧
        normalize_log_weights Real.exp Real.log (normalize_log_weights Real.exp Real.log l).1 =
          normalize_log_weights Real.exp Real.log l) ∧
    (∀ (D P : Type) (prob : problem_data D) (samp : sampler D P ℝ)
      (trans : stats_comp_helper D P ℝ) (interrupt : Nat → Bool) (k j : Nat)
      (c : particle_cloud P ℝ),
      (PF_loop Real.exp Real.log prob samp trans interrupt k).out[j]? = some c →
        c.ws = (weighted_from prob samp trans
          (old_at Real.exp Real.log prob samp trans j) j).ws ∧
        c.ws_normalized = (normalize_log_weights Real.exp Real.log c.ws).1 ∧
        (c.ws ≠ [] →
          c.ws_normalized = c.ws.map (fun x => x - Real.log (c.ws.map Real.exp).sum))) := by
  have hvec : ∀ l : List ℝ, l ≠ [] → (normalize_log_weights Real.exp Real.log l).1 =
      l.map (fun x => x - Real.log (l.map Real.exp).sum) := by
    intro l hl
    rw [normalize_log_weights_eq l hl]
    exact log_normalized_weights l hl
  constructor
  · intro l hl
    refine ⟨hvec l hl, ?_, ?_, ?_, ?_⟩
    · rw [normalize_log_weights_eq l hl]
    · rw [normalize_log_weights_eq l hl]
      simp only
      rw [exp_log_normalized_weights l hl]
      exact normalized_weights_sum l hl
    · intro c
      have hlc : l.map (fun x => x + c) ≠ [] := by
        simpa using hl
      rw [normalize_log_weights_eq _ hlc, normalize_log_weights_eq l hl,
        normalized_weights_shift]
    · rw [normalize_log_weights_eq l hl]
      simp only
      rw [normalize_log_weights_eq _ (normalized_weights_ne_nil l hl),
        normalized_weights_log l hl]
  · intro D P prob samp trans interrupt k j c hc
    obtain ⟨m, _, _, _, hout, _, _, _⟩ :=
      PF_loop_records Real.exp Real.log prob samp trans interrupt k
    rw [hout] at hc
    have hmem : c ∈ out_after Real.exp Real.log prob samp trans m :=
      List.mem_iff_getElem?.mpr ⟨j, hc⟩
    have hn := out_after_ws_normalized Real.exp Real.log prob samp trans m c hmem
    refine ⟨out_after_ws m j Real.exp Real.log prob samp trans c hc, hn, ?_⟩
    intro hws
    rw [hn]
    exact hvec c.ws hws

/-- For the log-weights `0` and `0` both entries of the vector are `0 - log 2`. -/
theorem normalize_log_weights_log_scale_witness :
    (normalize_log_weights Real.exp Real.log [0, 0]).1 = [0 - Real.log 2, 0 - Real.log 2] := by
  rw [(normalize_log_weights_log_scale.1 [0, 0] (by simp)).1]
  simp
  norm_num

end log_scale

end Mssm
